import Mathlib

/-!
Verification of the agentflow-ts agent-orchestration core against its
natural-language specification.

The TypeScript sources are shallowly embedded as executable Lean functions:
  - JS strings are Lean strings (the contents involved are ASCII, where
    UTF-16 length, code-point length, and toLowerCase agree with Lean);
  - JS numbers are modelled as Nat / Int / Rat with exact arithmetic
    (all quantities involved are small integers or quarters of integers,
    which IEEE doubles represent exactly in the relevant ranges);
  - async generators of text chunks are modelled by the concatenated
    result of the call, and fallible provider calls by an Except value;
  - the JS regular-expression engine used for skill triggers is an
    external primitive and is passed in as an abstract test function;
  - the single-threaded event-loop scheduling of the subagent pool is
    modelled by a state machine whose transitions are the synchronous
    code sections between await points.
-/

namespace AgentFlow

/-! ## Basic data model: roles and messages (src/types/index.ts) -/

inductive Role where
  | system
  | user
  | assistant
deriving DecidableEq, Repr

structure Message where
  role : Role
  content : String
deriving DecidableEq, Repr

/-! ## String helpers shared by the embedded functions

The JS methods String.prototype.includes, toLowerCase, trim, split are
modelled on Lean strings; on the ASCII data manipulated by this program
the semantics coincide. -/

/-- Boolean test that the list sub occurs as a contiguous sublist of l
(the JS expression haystack.includes(needle) on the char level). -/
def listIsPrefixB : List Char → List Char → Bool
  | [], _ => true
  | _ :: _, [] => false
  | a :: as, b :: bs => a = b && listIsPrefixB as bs

def listIsInfixB (sub : List Char) : List Char → Bool
  | [] => listIsPrefixB sub []
  | b :: bs => listIsPrefixB sub (b :: bs) || listIsInfixB sub bs

/-- The JS expression haystack.includes(needle). -/
def strIncludes (haystack needle : String) : Bool :=
  listIsInfixB needle.toList haystack.toList

/-- JS toLowerCase, character by character (list-based so that concrete
evaluation reduces). -/
def strToLower (s : String) : String :=
  ⟨s.data.map Char.toLower⟩

/-- JS trim: strip whitespace from both ends. -/
def strTrim (s : String) : String :=
  ⟨((s.data.dropWhile Char.isWhitespace).reverse.dropWhile Char.isWhitespace).reverse⟩

/-- JS slice(0, n) on strings. -/
def strTake (s : String) (n : Nat) : String :=
  ⟨s.data.take n⟩

/-- Longest prefix of characters satisfying p. -/
def strTakeWhile (p : Char → Bool) (s : String) : String :=
  ⟨s.data.takeWhile p⟩

/-- JS includes on a single character. -/
def strContainsChar (s : String) (c : Char) : Bool :=
  s.data.contains c

/-- Split at every character satisfying p, keeping empty fields, as the
JS split does. -/
def splitOnPred (p : Char → Bool) : List Char → List (List Char)
  | [] => [[]]
  | x :: xs =>
    match splitOnPred p xs with
    | [] => [[]]
    | h :: t => if p x then [] :: h :: t else (x :: h) :: t

def strSplitPred (p : Char → Bool) (s : String) : List String :=
  (splitOnPred p s.data).map List.asString

/-! ## Token estimation (src/context/costs.ts, token-counter section)

CHARS_PER_TOKEN and MODEL_CONTEXT_LIMITS are the source's static tables,
as association lists in the source's insertion order (JS Record string
keys iterate in insertion order). -/

def CHARS_PER_TOKEN : List (String × Nat) :=
  [("gpt-4", 4), ("gpt-3.5", 4), ("claude", 4), ("anthropic", 4),
   ("llama", 4), ("mistral", 4), ("mixtral", 4), ("default", 4)]

def MODEL_CONTEXT_LIMITS : List (String × Nat) :=
  [("gpt-4", 8192), ("gpt-4-32k", 32768), ("gpt-4-turbo", 128000),
   ("gpt-4o", 128000), ("gpt-3.5-turbo", 16385),
   ("claude-3-opus", 200000), ("claude-3-sonnet", 200000),
   ("claude-3-haiku", 200000), ("claude-3.5-sonnet", 200000),
   ("llama3.3:70b", 131072), ("llama3.3", 131072), ("llama3.2", 128000),
   ("llama3.1", 128000), ("llama3", 8192), ("llama2", 4096),
   ("codellama", 16384), ("mistral", 32768), ("mixtral", 32768),
   ("mistral-large", 128000), ("llama-3.3-70b-versatile", 131072),
   ("llama-3.1-70b-versatile", 131072), ("mixtral-8x7b-32768", 32768),
   ("default", 8192)]

/-- The family-ratio loop of estimateTokens: the first table entry whose
key is a substring of the lowercased model name wins, else the default
ratio (the source initialises charsPerToken to CHARS_PER_TOKEN.default
and breaks on the first match). -/
def charsPerTokenFor (model : String) : Nat :=
  match CHARS_PER_TOKEN.find? (fun p => strIncludes (strToLower model) p.1) with
  | some p => p.2
  | none => 4

/-- estimateTokens(text, model): 0 for the empty string (falsy check),
else ceil(length / charsPerToken) plus ceil of a 10 percent overhead.
Math.ceil(baseTokens * 0.1) on doubles agrees with exact rational
ceiling for the token counts reachable here, so both ceilings are
modelled by exact Nat ceiling division. -/
def estimateTokens (text : String) (model : String := "default") : Nat :=
  if text = "" then 0
  else
    let charsPerToken := charsPerTokenFor model
    let baseTokens := (text.length + charsPerToken - 1) / charsPerToken
    let overhead := (baseTokens + 9) / 10
    baseTokens + overhead

/-- estimateMessageTokens(message, model): content estimate plus the
fixed per-message role overhead of 4 tokens. -/
def estimateMessageTokens (message : Message) (model : String := "default") : Nat :=
  estimateTokens message.content model + 4

/-- estimateConversationTokens(messages, model): sum of per-message
estimates plus a conversation overhead of 3 tokens. -/
def estimateConversationTokens (messages : List Message) (model : String := "default") : Nat :=
  (messages.map (fun msg => estimateMessageTokens msg model)).sum + 3

/-- getContextLimit(model): direct lookup of the lowercased model, then a
partial match (model contains key or key contains model, first entry in
table order), else the default 8192. -/
def getContextLimit (model : String) : Nat :=
  let modelLower := strToLower model
  match MODEL_CONTEXT_LIMITS.find? (fun p => p.1 = modelLower) with
  | some p => p.2
  | none =>
    match MODEL_CONTEXT_LIMITS.find?
        (fun p => strIncludes modelLower p.1 || strIncludes p.1 modelLower) with
    | some p => p.2
    | none => 8192

/-! ## Skills (src/types/index.ts)

The frontmatter field (arbitrary key/value metadata) is not read by any
of the embedded operations and is omitted. -/

structure Skill where
  name : String
  description : String
  trigger : Option String := none
  template : String := ""
deriving DecidableEq, Repr

/-! ## Conversation context (src/agents/context.ts)

The config field of AgentContext is an opaque reference not read by any
embedded operation and is omitted. taskProgress is a JS number, modelled
as an exact rational. -/

structure AgentContext where
  messages : List Message
  taskProgress : ℚ
  lastMessage : Option String := none
  skills : List Skill := []
deriving Repr

def createAgentContext (skills : List Skill := []) : AgentContext :=
  { messages := [], taskProgress := 0, skills := skills }

/-- addMessage: pure append of the message plus update of lastMessage;
the input context is a value and is untouched (the source spreads into a
fresh object). -/
def addMessage (context : AgentContext) (message : Message) : AgentContext :=
  { context with
    messages := context.messages ++ [message]
    lastMessage := some message.content }

/-- updateProgress: clamps the requested progress to the interval 0..100
via Math.min(100, Math.max(0, progress)). -/
def updateProgress (context : AgentContext) (progress : ℚ) : AgentContext :=
  { context with taskProgress := min 100 (max 0 progress) }

/-- Character-based per-message token estimate of the history window:
content.length * 0.25, exact on doubles for the lengths involved. -/
def historyMsgTokens (m : Message) : ℚ :=
  (m.content.length : ℚ) * (1 / 4)

/-- The backward walk of getConversationHistory: msgs is the reversed
non-system message list (newest first); a message is taken while the
running total plus its estimate stays within maxTokens, and the walk
breaks at the first message that would exceed the budget. -/
def historyTake (maxTokens : ℚ) : ℚ → List Message → List Message
  | _, [] => []
  | total, m :: rest =>
    if maxTokens < total + historyMsgTokens m then []
    else m :: historyTake maxTokens (total + historyMsgTokens m) rest

/-- getConversationHistory(context, maxTokens = 8000): the first
system message (if any) always heads the result and its estimate is
charged against the budget; then the most recent non-system messages in
conversation order, chosen by the backward walk (the source unshifts
each taken message, which reverses the walk order back). -/
def getConversationHistory (context : AgentContext) (maxTokens : ℚ := 8000) : List Message :=
  let systemMessage := context.messages.find? (fun m => m.role = Role.system)
  let initTokens : ℚ :=
    match systemMessage with
    | some m => historyMsgTokens m
    | none => 0
  let nonSystem := (context.messages.filter (fun m => m.role ≠ Role.system)).reverse
  let includedMessages := (historyTake maxTokens initTokens nonSystem).reverse
  systemMessage.toList ++ includedMessages

/-! ## Skill matcher (src/skills/matcher.ts)

The JS regular-expression engine used for trigger patterns is an
external primitive; matchSkills takes the compiled case-insensitive
test new RegExp(trigger, i).test(input) as an abstract function
regexTest : pattern → input → Bool. -/

def stopWords : List String :=
  ["the", "a", "an", "and", "or", "but", "in", "on", "at", "to", "for",
   "of", "with", "by", "from", "as", "is", "was", "are", "were", "been",
   "be", "have", "has", "had", "do", "does", "did", "will", "would",
   "could", "should", "may", "might", "must", "can", "this", "that",
   "these", "those", "i", "you", "he", "she", "it", "we", "they"]

/-- A JS word character for the regex class backslash-w: ASCII letters,
digits, underscore. -/
def isWordChar (c : Char) : Bool :=
  c.isAlphanum || c = '_'

/-- extractKeywords(text): lowercase, replace every character that is
neither a word character nor whitespace by a space, split on whitespace
runs, keep tokens longer than 2 characters that are not stop words.
(JS split on a whitespace regex can yield empty leading tokens; those
are removed by the length filter, so splitting on the whitespace
predicate is equivalent.) -/
def extractKeywords (text : String) : List String :=
  let cleaned : String := ⟨(strToLower text).data.map
    (fun c => if isWordChar c || c.isWhitespace then c else ' ')⟩
  (strSplitPred Char.isWhitespace cleaned).filter
    (fun word => 2 < word.length && !stopWords.contains word)

structure MatchResult where
  skill : Skill
  score : Nat
  reason : String
deriving DecidableEq, Repr

/-- One iteration of the matchSkills loop: the score starts at 0 and the
first rule that fires sets it (trigger regex, then name substring, then
keyword overlap); the keyword count is the length of the filter of the
description keywords over membership in the input keywords, so repeated
description keywords count with multiplicity as in the source. -/
def scoreSkill (regexTest : String → String → Bool) (input : String)
    (skill : Skill) : Nat × String :=
  let inputLower := strToLower input
  let afterTrigger : Nat × String :=
    match skill.trigger with
    | some trig => if regexTest trig input then (100, "Trigger pattern matched") else (0, "")
    | none => (0, "")
  if afterTrigger.1 ≠ 0 then afterTrigger
  else if strIncludes inputLower (strToLower skill.name) then
    (80, "Skill name found in input")
  else
    let descKeywords := extractKeywords skill.description
    let inputKeywords := extractKeywords input
    let matchedKeywords := descKeywords.filter (fun k => inputKeywords.contains k)
    if 0 < matchedKeywords.length then
      (min 60 (matchedKeywords.length * 15),
       "Matched keywords: " ++ String.intercalate ", " matchedKeywords)
    else (0, "")

/-- The result-collection loop of matchSkills before sorting: skills in
input order, each scored, zero scores omitted. -/
def collectResults (regexTest : String → String → Bool) (input : String)
    (skills : List Skill) : List MatchResult :=
  skills.filterMap (fun skill =>
    let scored := scoreSkill regexTest input skill
    if 0 < scored.1 then some ⟨skill, scored.1, scored.2⟩ else none)

/-- Stable insertion for the descending-by-score sort: an element is
placed before the first earlier-sorted element whose score is not
larger, so later input elements land after equal-score earlier ones,
exactly as the stable JS Array.prototype.sort with comparator
(a, b) => b.score - a.score. -/
def insertByScoreDesc (x : MatchResult) : List MatchResult → List MatchResult
  | [] => [x]
  | y :: ys => if y.score ≤ x.score then x :: y :: ys else y :: insertByScoreDesc x ys

def sortByScoreDesc : List MatchResult → List MatchResult
  | [] => []
  | x :: xs => insertByScoreDesc x (sortByScoreDesc xs)

/-- matchSkills(input, skills): score every skill, keep positive scores,
sort descending by score with a stable sort. -/
def matchSkills (regexTest : String → String → Bool) (input : String)
    (skills : List Skill) : List MatchResult :=
  sortByScoreDesc (collectResults regexTest input skills)

/-- findBestSkill(input, skills): the top-ranked skill, or none when the
match list is empty. -/
def findBestSkill (regexTest : String → String → Bool) (input : String)
    (skills : List Skill) : Option Skill :=
  match matchSkills regexTest input skills with
  | [] => none
  | r :: _ => some r.skill

/-! ## Provider interface (src/types/index.ts)

A provider chat call is an async generator of text chunks that either
terminates (its chunks concatenating into the reply) or throws; it is
modelled by the concatenated reply or a thrown error message. -/

structure ChatOptions where
  model : Option String := none
  temperature : Option ℚ := none
  maxTokens : Option Nat := none

def ChatFn : Type :=
  List Message → ChatOptions → Except String String

/-! ## Compaction engine (src/context/compaction.ts) -/

structure CompactionOptions where
  focus : Option String := none
  targetTokens : Option Nat := none
  keepRecent : Option Nat := none
  provider : Option ChatFn := none
  model : Option String := none

structure CompactionResult where
  messages : List Message
  originalTokens : Nat
  compactedTokens : Nat
  savedTokens : Int
  savedPercentage : Int
  summary : Option String := none
deriving DecidableEq, Repr

/-- Math.round: round half toward positive infinity, modelled on exact
rationals (the quotients involved are well inside the range where the
double computation agrees). -/
def jsRound (q : ℚ) : Int :=
  ⌊q + 1 / 2⌋

/-- The user branch of the createLocalSummary loop: for a user message
the first sentence of the trimmed content (prefix before the first
period, exclamation or question mark), kept when longer than 10
characters and truncated to 100. -/
def summaryUserLine (msg : Message) : Option String :=
  if msg.role = Role.user then
    let content := strTrim msg.content
    let firstSentence := strTakeWhile (fun c => c ≠ '.' && c ≠ '!' && c ≠ '?') content
    if 10 < firstSentence.length then some (strTake firstSentence 100) else none
  else none

/-- First character is a dash, a star or a digit (the source regex on
line starts). -/
def lineStartsKeyChar (line : String) : Bool :=
  match line.toList with
  | c :: _ => c = '-' || c = '*' || c.isDigit
  | [] => false

/-- The assistant branch of the createLocalSummary loop: of the first 3
lines of the trimmed content, those starting with a bullet or digit or
containing a colon, truncated to 80 characters. -/
def summaryAssistantLines (msg : Message) : List String :=
  if msg.role = Role.assistant then
    (((strSplitPred (fun c => c = '\n') (strTrim msg.content)).take 3).filter
      (fun line => lineStartsKeyChar line || strContainsChar line ':')).map
      (fun line => strTake line 80)
  else []

/-- Deduplication keeping first occurrences, as the JS spread of a Set
built from an array. -/
def dedupFirstAux : List String → List String → List String
  | [], _ => []
  | x :: xs, seen =>
    if seen.contains x then dedupFirstAux xs seen else x :: dedupFirstAux xs (x :: seen)

def dedupKeepFirst (l : List String) : List String :=
  dedupFirstAux l []

/-- createLocalSummary(messages, focus): first clauses of user messages
and bullet or colon lines of assistant messages, deduplicated, capped at
5 each, joined into labelled sections; a non-empty focus adds a section;
a fully empty summary falls back to a fixed sentence. -/
def createLocalSummary (messages : List Message) (focus : Option String := none) : String :=
  let userQuestions := (dedupKeepFirst (messages.filterMap summaryUserLine)).take 5
  let assistantPoints := (dedupKeepFirst (messages.flatMap summaryAssistantLines)).take 5
  let summaryParts : List String :=
    (if userQuestions ≠ [] then
      ["Topics discussed: " ++ String.intercalate "; " userQuestions] else [])
    ++ (if assistantPoints ≠ [] then
      ["Key points: " ++ String.intercalate "; " assistantPoints] else [])
    ++ (match focus with
        | some f => if f = "" then [] else ["Current focus: " ++ f]
        | none => [])
  let joined := String.intercalate "\n" summaryParts
  if joined = "" then "Previous conversation context." else joined

/-- The model string used for token estimation in simpleCompact:
options.model with the JS falsy default to the default family (the
empty string is falsy). -/
def compactionModel (options : CompactionOptions) : String :=
  match options.model with
  | some m => if m = "" then "default" else m
  | none => "default"

/-- The target budget of simpleCompact: targetTokens when truthy, else
half the model's context limit (Math.floor of limit times 0.5, exact
since the limits are even integers). -/
def compactionTarget (options : CompactionOptions) (model : String) : Nat :=
  match options.targetTokens with
  | some t => if t = 0 then getContextLimit model / 2 else t
  | none => getContextLimit model / 2

/-- The last keepRecent non-system messages. JS slice(-k) with k = 0 is
slice(0), the whole array. -/
def recentOf (nonSystemMessages : List Message) (keepRecent : Nat) : List Message :=
  if keepRecent = 0 then nonSystemMessages
  else nonSystemMessages.drop (nonSystemMessages.length - keepRecent)

/-- Everything before the last keepRecent non-system messages. JS
slice(0, -k) with k = 0 is slice(0, 0), the empty array. -/
def oldOf (nonSystemMessages : List Message) (keepRecent : Nat) : List Message :=
  if keepRecent = 0 then []
  else nonSystemMessages.take (nonSystemMessages.length - keepRecent)

/-- simpleCompact(messages, options): a no-op when the estimated usage
is at or under the target; otherwise the first system message is kept,
the last keepRecent (default 4) non-system messages are kept verbatim,
and older non-system messages are replaced by one synthetic system
message holding the local summary. -/
def simpleCompact (messages : List Message) (options : CompactionOptions := {}) : CompactionResult :=
  let keepRecent := options.keepRecent.getD 4
  let model := compactionModel options
  let originalTokens := estimateConversationTokens messages model
  let target := compactionTarget options model
  if originalTokens ≤ target then
    { messages := messages, originalTokens := originalTokens,
      compactedTokens := originalTokens, savedTokens := 0, savedPercentage := 0 }
  else
    let systemMessage := messages.find? (fun m => m.role = Role.system)
    let nonSystemMessages := messages.filter (fun m => m.role ≠ Role.system)
    let recentMessages := recentOf nonSystemMessages keepRecent
    let oldMessages := oldOf nonSystemMessages keepRecent
    let summaryContent :=
      if oldMessages ≠ [] then createLocalSummary oldMessages options.focus else ""
    let compactedMessages :=
      systemMessage.toList
      ++ (if summaryContent ≠ "" then
        [⟨Role.system, "[Previous conversation summary]:\n" ++ summaryContent⟩] else [])
      ++ recentMessages
    let compactedTokens := estimateConversationTokens compactedMessages model
    let savedTokens : Int := (originalTokens : Int) - (compactedTokens : Int)
    { messages := compactedMessages, originalTokens := originalTokens,
      compactedTokens := compactedTokens, savedTokens := savedTokens,
      savedPercentage := jsRound ((savedTokens : ℚ) * 100 / (originalTokens : ℚ)),
      summary := some summaryContent }

def roleUpper : Role → String
  | Role.system => "SYSTEM"
  | Role.user => "USER"
  | Role.assistant => "ASSISTANT"

/-- The summarization prompt that llmCompact sends to the provider. -/
def llmSummaryPrompt (conversationText : String) (focus : Option String) : String :=
  let base :=
    "Summarize this conversation concisely, preserving key information, decisions, and context needed for continuation:\n\n"
    ++ conversationText
    ++ "\n\nCreate a brief summary (max 200 words) that captures:\n- Main topics discussed\n- Key decisions or conclusions\n- Important context for future messages"
  match focus with
  | some f => if f = "" then base
      else base ++ "\n\nFocus particularly on information related to: " ++ f
  | none => base

/-- llmCompact(messages, options): falls back to simpleCompact when the
provider or model is missing (or the model string is empty, which is
falsy) or when there are no old messages; otherwise it asks the
provider for a summary (falling back to the local summary on a provider
error) and rebuilds the conversation unconditionally. It never computes
a target budget. -/
def llmCompact (messages : List Message) (options : CompactionOptions) : CompactionResult :=
  match options.provider, options.model with
  | some provider, some model =>
    if model = "" then simpleCompact messages options
    else
      let keepRecent := options.keepRecent.getD 4
      let originalTokens := estimateConversationTokens messages model
      let systemMessage := messages.find? (fun m => m.role = Role.system)
      let nonSystemMessages := messages.filter (fun m => m.role ≠ Role.system)
      let recentMessages := recentOf nonSystemMessages keepRecent
      let oldMessages := oldOf nonSystemMessages keepRecent
      if oldMessages = [] then simpleCompact messages options
      else
        let conversationText := String.intercalate "\n\n"
          (oldMessages.map (fun m => roleUpper m.role ++ ": " ++ m.content))
        let prompt := llmSummaryPrompt conversationText options.focus
        let summary :=
          match provider [⟨Role.user, prompt⟩]
              { model := some model, maxTokens := some 500, temperature := some (3 / 10) } with
          | Except.ok s => s
          | Except.error _ => createLocalSummary oldMessages options.focus
        let compactedMessages :=
          systemMessage.toList
          ++ [⟨Role.system, "[Conversation Summary]:\n" ++ summary⟩]
          ++ recentMessages
        let compactedTokens := estimateConversationTokens compactedMessages model
        let savedTokens : Int := (originalTokens : Int) - (compactedTokens : Int)
        { messages := compactedMessages, originalTokens := originalTokens,
          compactedTokens := compactedTokens, savedTokens := savedTokens,
          savedPercentage := jsRound ((savedTokens : ℚ) * 100 / (originalTokens : ℚ)),
          summary := some summary }
  | _, _ => simpleCompact messages options

/-! ## Skill execution (src/skills/runner.ts)

SkillRunResult carries the output plus a wall-clock duration; only the
output is observable in the embedded semantics. -/

def lbraceChar : Char := Char.ofNat 123

def rbraceChar : Char := Char.ofNat 125

/-- Scanner for the global template replace of double-braced word
placeholders: at each position, a placeholder made of an opening double
brace, one or more word characters and a closing double brace is
replaced by the variable's value when the variable is bound to a truthy
(non-empty) string, and kept verbatim otherwise; all other characters
pass through. The fuel argument starts at the input length and bounds
the recursion; every step consumes at least one character, so the fuel
never runs out before the input does. -/
def interpolateGo (vars : List (String × String)) : Nat → List Char → List Char
  | 0, l => l
  | _ + 1, [] => []
  | fuel + 1, c :: rest =>
    if c = lbraceChar then
      match rest with
      | c2 :: rest2 =>
        if c2 = lbraceChar then
          let name := rest2.takeWhile isWordChar
          let after := rest2.dropWhile isWordChar
          match name, after with
          | _ :: _, a1 :: a2 :: rest3 =>
            if a1 = rbraceChar && a2 = rbraceChar then
              let nameStr := name.asString
              let placeholder := lbraceChar :: lbraceChar :: (name ++ [rbraceChar, rbraceChar])
              let repl :=
                match vars.lookup nameStr with
                | some v => if v = "" then placeholder else v.toList
                | none => placeholder
              repl ++ interpolateGo vars fuel rest3
            else c :: interpolateGo vars fuel rest
          | _, _ => c :: interpolateGo vars fuel rest
        else c :: interpolateGo vars fuel rest
      | [] => [c]
    else c :: interpolateGo vars fuel rest

def interpolateTemplate (template : String) (vars : List (String × String)) : String :=
  (interpolateGo vars template.toList.length template.toList).asString

/-- runSkill(skill, input, provider, model): renders the template with
the input variable and sends one system plus user exchange to the
provider; the concatenated stream is the output. -/
def runSkill (provider : ChatFn) (skill : Skill) (input : String) (model : String) :
    Except String String :=
  let prompt := interpolateTemplate skill.template [("input", input)]
  provider
    [⟨Role.system,
      "You are executing the \"" ++ skill.name ++ "\" skill. Follow the instructions precisely."⟩,
     ⟨Role.user, prompt⟩]
    { model := some model }

/-! ## Turn loop (src/agents/runner.ts)

The run is a recursion whose fuel is maxTurns minus turnCount, exactly
the while guard of the source. Provider failures propagate to the
caller as the error branch of the Except result. Date.now() is modelled
by a caller-supplied clock indexed by the turn on which it is read. -/

structure ContinueDecision where
  continueRun : Bool
  reason : String

structure RunResult where
  context : AgentContext
  turns : Nat
  stopReason : Option String := none
  circuitBroken : Bool := false

/-- One turn of the loop: if the best skill match scores at least 80 the
skill is executed, otherwise the windowed history is sent as a plain
chat call; either way the reply is appended as an assistant message. -/
def turnBody (regexTest : String → String → Bool) (provider : ChatFn) (model : String)
    (initialPrompt : String) (context : AgentContext) : Except String AgentContext :=
  let lastInput := context.lastMessage.getD initialPrompt
  let skillMatches := matchSkills regexTest lastInput context.skills
  let chatTurn : Except String AgentContext :=
    match provider (getConversationHistory context) { model := some model } with
    | Except.ok response => Except.ok (addMessage context ⟨Role.assistant, response⟩)
    | Except.error e => Except.error e
  match skillMatches with
  | r :: _ =>
    if 80 ≤ r.score then
      match runSkill provider r.skill lastInput model with
      | Except.ok output => Except.ok (addMessage context ⟨Role.assistant, output⟩)
      | Except.error e => Except.error e
    else chatTurn
  | [] => chatTurn

/-- The anti-loop cleanup: drop stop timestamps older than five minutes
from the front of the window. -/
def dropOldStops (stopWindow : List Nat) (fiveMinAgo : Nat) : List Nat :=
  stopWindow.dropWhile (fun ts => ts < fiveMinAgo)

def runAgentGo (regexTest : String → String → Bool) (provider : ChatFn) (model : String)
    (initialPrompt : String) (shouldContinue : Option (AgentContext → ContinueDecision))
    (clock : Nat → Nat) (maxTurns : Nat) :
    Nat → Nat → List Nat → AgentContext → Except String RunResult
  | 0, turnCount, _, context => Except.ok ⟨context, turnCount, none, false⟩
  | fuel + 1, turnCount, stopWindow, context =>
    match turnBody regexTest provider model initialPrompt context with
    | Except.error e => Except.error e
    | Except.ok context1 =>
      let turnCount' := turnCount + 1
      let context2 := updateProgress context1 ((turnCount' : ℚ) / (maxTurns : ℚ) * 100)
      match shouldContinue with
      | none => Except.ok ⟨context2, turnCount', none, false⟩
      | some policy =>
        let decision := policy context2
        if decision.continueRun then
          runAgentGo regexTest provider model initialPrompt shouldContinue clock maxTurns
            fuel turnCount' stopWindow context2
        else
          let now := clock turnCount
          let window := dropOldStops (stopWindow ++ [now]) (now - 5 * 60 * 1000)
          if 3 ≤ window.length then Except.ok ⟨context2, turnCount', none, true⟩
          else Except.ok ⟨context2, turnCount', some decision.reason, false⟩

/-- runAgent(initialPrompt, context, options): appends the optional
(truthy) system prompt and the user prompt, then iterates turns bounded
by maxTurns (default 10); with no continuation policy the loop breaks
after one turn; a false continuation decision breaks with the reason
(or trips the circuit breaker after three stops inside the rolling
five-minute window). -/
def runAgent (initialPrompt : String) (context : AgentContext) (provider : ChatFn)
    (model : String) (regexTest : String → String → Bool)
    (systemPrompt : Option String := none) (maxTurns : Option Nat := none)
    (shouldContinue : Option (AgentContext → ContinueDecision) := none)
    (clock : Nat → Nat := fun _ => 0) : Except String RunResult :=
  let context1 :=
    match systemPrompt with
    | some sp => if sp = "" then context else addMessage context ⟨Role.system, sp⟩
    | none => context
  let context2 := addMessage context1 ⟨Role.user, initialPrompt⟩
  let mt := maxTurns.getD 10
  runAgentGo regexTest provider model initialPrompt shouldContinue clock mt mt 0 [] context2

/-! ## Subagent pool (src/agents/subagents.ts)

The pool is single-threaded cooperative code; its observable state
transitions are the synchronous sections between await points:

  - spawn: creates a pending task and, when the running set is under the
    limit, calls runTask, whose synchronous prefix (up to the first
    await) marks the task running and adds it to the running set;
  - the asynchronous remainder of runTask resumes later and either
    records the result and completes the task or catches the thrown
    error into the task's error field and fails it, then always removes
    the task from the running set and drains the queue. This resumption
    is the finishTask transition, with the try-block outcome supplied as
    an Except value;
  - processQueue: walks the task map in insertion order starting every
    pending task until the running set reaches the limit.

Task ids are crypto.randomUUID values, fresh per spawn; they are
modelled by a counter, which preserves exactly the property used
(freshness). The task map iterates in insertion order, as a JS Map. -/

inductive TaskStatus where
  | pending
  | running
  | completed
  | failed
deriving DecidableEq, Repr

structure SubagentTask where
  id : Nat
  prompt : String
  model : String
  status : TaskStatus
  result : Option String := none
  error : Option String := none
deriving DecidableEq, Repr

structure PoolState where
  tasks : List SubagentTask
  running : List Nat
  maxConcurrent : Nat
  nextId : Nat
deriving DecidableEq, Repr

/-- The pool constructor: maxConcurrent defaults to 3 (zero is falsy in
the source, so the stored limit is always positive). -/
def emptyPool (maxConcurrent : Nat) : PoolState :=
  { tasks := [], running := [], maxConcurrent := if maxConcurrent = 0 then 3 else maxConcurrent,
    nextId := 0 }

def getTask (s : PoolState) (taskId : Nat) : Option SubagentTask :=
  s.tasks.find? (fun t => t.id = taskId)

/-- The synchronous prefix of runTask: mark the task running and add it
to the running set (a JS Set add is idempotent). -/
def startTask (s : PoolState) (taskId : Nat) : PoolState :=
  { s with
    tasks := s.tasks.map (fun t => if t.id = taskId then { t with status := TaskStatus.running } else t)
    running := if s.running.contains taskId then s.running else s.running ++ [taskId] }

/-- spawn(prompt, model): create the pending task, then start it
immediately when the running set is under the limit. -/
def spawn (s : PoolState) (prompt model : String) : PoolState × Nat :=
  let taskId := s.nextId
  let task : SubagentTask :=
    { id := taskId, prompt := prompt, model := model, status := TaskStatus.pending }
  let s1 := { s with tasks := s.tasks ++ [task], nextId := s.nextId + 1 }
  if s1.running.length < s1.maxConcurrent then (startTask s1 taskId, taskId)
  else (s1, taskId)

/-- The processQueue walk over a snapshot of task ids in map order:
start every pending task, stopping once the running set reaches the
limit. -/
def processQueueGo : PoolState → List Nat → PoolState
  | s, [] => s
  | s, taskId :: rest =>
    match s.tasks.find? (fun t => t.id = taskId) with
    | some t =>
      if t.status = TaskStatus.pending then
        let s' := startTask s taskId
        if s'.maxConcurrent ≤ s'.running.length then s' else processQueueGo s' rest
      else processQueueGo s rest
    | none => processQueueGo s rest

def processQueue (s : PoolState) : PoolState :=
  if s.maxConcurrent ≤ s.running.length then s
  else processQueueGo s (s.tasks.map (fun t => t.id))

/-- The asynchronous remainder of runTask for a started task: on a
normal return record the final context's last message as the result and
complete; on a thrown error record its message and fail; in both cases
remove the task from the running set and drain the queue. -/
def finishTask (s : PoolState) (taskId : Nat) (outcome : Except String (Option String)) : PoolState :=
  let s1 :=
    { s with
      tasks := s.tasks.map (fun t =>
        if t.id = taskId then
          match outcome with
          | Except.ok r => { t with result := r, status := TaskStatus.completed }
          | Except.error e => { t with error := some e, status := TaskStatus.failed }
        else t)
      running := s.running.filter (fun i => i ≠ taskId) }
  processQueue s1

def runningCount (s : PoolState) : Nat :=
  s.running.length

def countStatus (tasks : List SubagentTask) (st : TaskStatus) : Nat :=
  (tasks.filter (fun t => t.status = st)).length

def statusCount (s : PoolState) (st : TaskStatus) : Nat :=
  countStatus s.tasks st

/-- N successive spawns (the task contents do not affect scheduling). -/
def spawnMany (s : PoolState) : Nat → PoolState
  | 0 => s
  | n + 1 => (spawn (spawnMany s n) "task" "model").1

/-- A pool history: any interleaving of spawns and task finishes. -/
inductive PoolOp where
  | spawnOp (prompt model : String)
  | finishOp (taskId : Nat) (outcome : Except String (Option String))

def applyOp (s : PoolState) : PoolOp → PoolState
  | PoolOp.spawnOp prompt model => (spawn s prompt model).1
  | PoolOp.finishOp taskId outcome => finishTask s taskId outcome

def applyOps (s : PoolState) : List PoolOp → PoolState
  | [] => s
  | op :: ops => applyOps (applyOp s op) ops

/-! ## waitFor (src/agents/subagents.ts)

waitFor(taskId, timeoutMs) polls the task map every 100 ms while the
elapsed time is under the timeout, so the number of loop iterations is
the timeout divided by the poll interval, rounded up; it is positive
whenever timeoutMs is. The successive task-map lookups are supplied as
an observation function indexed by the poll number; waitFor reads the
pool and never writes it. -/

inductive WaitError where
  | taskNotFound
  | taskTimeout
deriving DecidableEq, Repr

def isTerminal (st : TaskStatus) : Bool :=
  st = TaskStatus.completed || st = TaskStatus.failed

def waitForAux (observe : Nat → Option SubagentTask) : Nat → Nat → Except WaitError SubagentTask
  | _, 0 => Except.error WaitError.taskTimeout
  | poll, fuel + 1 =>
    match observe poll with
    | none => Except.error WaitError.taskNotFound
    | some task =>
      if isTerminal task.status then Except.ok task
      else waitForAux observe (poll + 1) fuel

def waitFor (observe : Nat → Option SubagentTask) (maxPolls : Nat) :
    Except WaitError SubagentTask :=
  waitForAux observe 0 maxPolls

/-! ## Shared helper lemmas -/

/-- Nat ceiling division agrees with the rational ceiling. -/
theorem ceil_ratCast_div (a b : ℕ) (hb : 0 < b) :
    ⌈(a : ℚ) / (b : ℚ)⌉₊ = (a + b - 1) / b := by
  have hbQ : (0 : ℚ) < (b : ℚ) := by exact_mod_cast hb
  apply le_antisymm
  · rw [Nat.ceil_le, div_le_iff₀ hbQ]
    have h1 : b * ((a + b - 1) / b) + (a + b - 1) % b = a + b - 1 :=
      Nat.div_add_mod (a + b - 1) b
    have h2 : (a + b - 1) % b < b := Nat.mod_lt _ hb
    have h3 : a ≤ (a + b - 1) / b * b := by
      rw [Nat.mul_comm]
      omega
    exact_mod_cast h3
  · have h4 : (a : ℚ) / b ≤ (⌈(a : ℚ) / (b : ℚ)⌉₊ : ℚ) := Nat.le_ceil _
    rw [div_le_iff₀ hbQ] at h4
    have h5 : a ≤ b * ⌈(a : ℚ) / (b : ℚ)⌉₊ := by
      rw [Nat.mul_comm]
      exact_mod_cast h4
    rw [Nat.div_le_iff_le_mul_add_pred hb]
    omega

/-- Every family in the chars-per-token table has ratio 4, so the ratio
lookup is constantly 4 whatever the model string. -/
theorem charsPerTokenFor_eq (model : String) : charsPerTokenFor model = 4 := by
  unfold charsPerTokenFor
  cases h : CHARS_PER_TOKEN.find? (fun p => strIncludes (strToLower model) p.1) with
  | none => rfl
  | some p =>
    have hmem := List.mem_of_find?_eq_some h
    have hall : ∀ q ∈ CHARS_PER_TOKEN, q.2 = 4 := by decide
    simpa using hall p hmem

/-! ## C8: purity and invariants of addMessage and updateProgress -/

/-- C8: addMessage and updateProgress are pure value constructors (they
rebuild the context record, which in this embedding is immutable by
construction); addMessage grows the message log by exactly one and
mirrors the new message's content in lastMessage; updateProgress clamps
every requested progress into the interval 0..100, sending -10 to 0 and
150 to 100. -/
theorem C8_context_mutations (ctx : AgentContext) (m : Message) (p : ℚ) :
    (addMessage ctx m).messages.length = ctx.messages.length + 1 ∧
    (addMessage ctx m).lastMessage = some m.content ∧
    0 ≤ (updateProgress ctx p).taskProgress ∧
    (updateProgress ctx p).taskProgress ≤ 100 ∧
    (updateProgress ctx (-10)).taskProgress = 0 ∧
    (updateProgress ctx 150).taskProgress = 100 := by
  refine ⟨by simp [addMessage], rfl, ?_, ?_, ?_, ?_⟩
  · exact le_min (by norm_num) (le_max_left 0 p)
  · exact min_le_left _ _
  · norm_num [updateProgress]
  · norm_num [updateProgress]

/-! ## C9: the token estimation heuristic -/

/-- C9: estimateTokens returns 0 on the empty string, and otherwise the
character count divided by the model family's chars-per-token ratio
(4 for every family, hence also the default) rounded up, plus a 10
percent overhead rounded up; estimateMessageTokens adds the fixed
4-token per-message role overhead to the content estimate. -/
theorem C9_token_estimation (text : String) (model : String) (msg : Message) :
    charsPerTokenFor model = 4 ∧
    estimateTokens text model =
      (if text = "" then 0 else
        ⌈(text.length : ℚ) / 4⌉₊ + ⌈(⌈(text.length : ℚ) / 4⌉₊ : ℚ) / 10⌉₊) ∧
    estimateMessageTokens msg model = estimateTokens msg.content model + 4 := by
  refine ⟨charsPerTokenFor_eq model, ?_, rfl⟩
  by_cases h : text = ""
  · simp [estimateTokens, h]
  · have h4 : ⌈(text.length : ℚ) / (4 : ℕ)⌉₊ = (text.length + 4 - 1) / 4 :=
      ceil_ratCast_div text.length 4 (by norm_num)
    have h10 : ⌈(((text.length + 4 - 1) / 4 : ℕ) : ℚ) / (10 : ℕ)⌉₊
        = ((text.length + 4 - 1) / 4 + 10 - 1) / 10 :=
      ceil_ratCast_div ((text.length + 4 - 1) / 4) 10 (by norm_num)
    push_cast at h4 h10
    simp only [estimateTokens, h, if_false, charsPerTokenFor_eq, h4, h10]
    norm_num

/-! ## C4: the history window -/

/-- The first system message of a context, as getConversationHistory
finds it. -/
def firstSystem (ctx : AgentContext) : Option Message :=
  ctx.messages.find? (fun m => m.role = Role.system)

/-- The non-system messages of a context in conversation order. -/
def nonSystemOf (ctx : AgentContext) : List Message :=
  ctx.messages.filter (fun m => m.role ≠ Role.system)

/-- The token total already consumed by the system message before the
backward walk starts. -/
def historyInit (ctx : AgentContext) : ℚ :=
  match firstSystem ctx with
  | some m => historyMsgTokens m
  | none => 0

/-- The backward walk takes a prefix of its (newest-first) input, keeps
the running total within the budget whenever it takes anything, and
stops exactly at the first message that would exceed the budget. -/
theorem historyTake_spec (mt : ℚ) (total : ℚ) (l : List Message) :
    ∃ n, n ≤ l.length ∧ historyTake mt total l = l.take n ∧
      (0 < n → total + ((l.take n).map historyMsgTokens).sum ≤ mt) ∧
      (∀ m rest, l.drop n = m :: rest →
        mt < total + ((l.take n).map historyMsgTokens).sum + historyMsgTokens m) := by
  induction l generalizing total with
  | nil =>
    exact ⟨0, by simp, by simp [historyTake], by simp, by simp⟩
  | cons m rest ih =>
    by_cases h : mt < total + historyMsgTokens m
    · refine ⟨0, by simp, ?_, by simp, ?_⟩
      · simp [historyTake, h]
      · intro m' rest' hdrop
        simp only [List.drop_zero] at hdrop
        cases hdrop
        simpa using h
    · obtain ⟨n, hlen, htake, hsum, hnext⟩ := ih (total + historyMsgTokens m)
      refine ⟨n + 1, by simpa using hlen, ?_, ?_, ?_⟩
      · simp only [historyTake, if_neg h, htake, List.take_succ_cons]
      · intro _
        rcases Nat.eq_zero_or_pos n with hn | hn
        · subst hn
          simpa using not_lt.mp h
        · have := hsum hn
          simp only [List.take_succ_cons, List.map_cons, List.sum_cons]
          linarith
      · intro m' rest' hdrop
        simp only [List.drop_succ_cons] at hdrop
        have := hnext m' rest' hdrop
        simp only [List.take_succ_cons, List.map_cons, List.sum_cons]
        linarith

/-- C4: for every context and every budget, the history view is the
first system message (if present, always kept and placed first, however
small the budget) followed by a suffix of the non-system messages in
conversation order; the suffix is chosen by the backward walk from the
newest message, whose running character-based total (seeded with the
system message's estimate) stays within the budget, and which stops at
the first older message whose addition would exceed the budget. The
call builds a fresh list and leaves ctx.messages untouched (the
embedding is a pure function of the context value). -/
theorem C4_history_window (ctx : AgentContext) (mt : ℚ) :
    ∃ n, n ≤ (nonSystemOf ctx).length ∧
      getConversationHistory ctx mt
        = (firstSystem ctx).toList
          ++ (nonSystemOf ctx).drop ((nonSystemOf ctx).length - n) ∧
      (∀ m, firstSystem ctx = some m → (getConversationHistory ctx mt).head? = some m) ∧
      (0 < n →
        historyInit ctx
          + (((nonSystemOf ctx).reverse.take n).map historyMsgTokens).sum ≤ mt) ∧
      (∀ m rest, (nonSystemOf ctx).reverse.drop n = m :: rest →
        mt < historyInit ctx
          + (((nonSystemOf ctx).reverse.take n).map historyMsgTokens).sum
          + historyMsgTokens m) := by
  obtain ⟨n, hlen, htake, hsum, hnext⟩ :=
    historyTake_spec mt (historyInit ctx) (nonSystemOf ctx).reverse
  have hrev : (( (nonSystemOf ctx).reverse.take n).reverse)
      = (nonSystemOf ctx).drop ((nonSystemOf ctx).length - n) :=
    (List.rtake_eq_reverse_take_reverse (nonSystemOf ctx) n).symm
  have hmain : getConversationHistory ctx mt
      = (firstSystem ctx).toList
        ++ (nonSystemOf ctx).drop ((nonSystemOf ctx).length - n) := by
    show (firstSystem ctx).toList
        ++ (historyTake mt (historyInit ctx) (nonSystemOf ctx).reverse).reverse = _
    rw [htake, hrev]
  refine ⟨n, by simpa using hlen, hmain, ?_, hsum, hnext⟩
  intro m hm
  rw [hmain, hm]
  rfl

/-- Witness for C4 at a concrete context whose system message sits in
the middle and whose budget of 2 tokens admits only the newest
non-system message: the window keeps the system message first. -/
theorem C4_history_window_witness :
    (getConversationHistory
      { messages := [⟨Role.user, "aaaa"⟩, ⟨Role.system, "sys"⟩,
                     ⟨Role.user, "bbbb"⟩, ⟨Role.user, "cccc"⟩],
        taskProgress := 0 } 2).head? = some ⟨Role.system, "sys"⟩ := by
  obtain ⟨n, _, _, hhead, _, _⟩ :=
    C4_history_window
      { messages := [⟨Role.user, "aaaa"⟩, ⟨Role.system, "sys"⟩,
                     ⟨Role.user, "bbbb"⟩, ⟨Role.user, "cccc"⟩],
        taskProgress := 0 } 2
  exact hhead ⟨Role.system, "sys"⟩ (by decide)

/-! ## C10: later system messages are dropped and never summarized -/

/-- The first system message of a raw message list, as the compaction
functions find it. -/
def firstSystemIn (messages : List Message) : Option Message :=
  messages.find? (fun m => m.role = Role.system)

/-- The user-line extraction of the local summary never fires on system
messages, so filtering them out changes nothing. -/
theorem filterMap_userLine_filter (msgs : List Message) :
    (msgs.filter (fun m => m.role ≠ Role.system)).filterMap summaryUserLine
      = msgs.filterMap summaryUserLine := by
  induction msgs with
  | nil => rfl
  | cons m rest ih =>
    by_cases hm : m.role = Role.system
    · rw [List.filter_cons_of_neg (by simp [hm]), ih,
        List.filterMap_cons_none (by simp [summaryUserLine, hm])]
    · rw [List.filter_cons_of_pos (by simp [hm]), List.filterMap_cons, List.filterMap_cons, ih]

/-- The assistant-line extraction of the local summary never fires on
system messages, so filtering them out changes nothing. -/
theorem flatMap_assistantLines_filter (msgs : List Message) :
    (msgs.filter (fun m => m.role ≠ Role.system)).flatMap summaryAssistantLines
      = msgs.flatMap summaryAssistantLines := by
  induction msgs with
  | nil => rfl
  | cons m rest ih =>
    by_cases hm : m.role = Role.system
    · rw [List.filter_cons_of_neg (by simp [hm]), ih, List.flatMap_cons,
        show summaryAssistantLines m = [] by simp [summaryAssistantLines, hm],
        List.nil_append]
    · rw [List.filter_cons_of_pos (by simp [hm]), List.flatMap_cons, List.flatMap_cons, ih]

/-- A member of a conditional singleton is that element. -/
theorem mem_ite_singleton {α : Type} {x a : α} {c : Prop} [Decidable c]
    (h : x ∈ (if c then [a] else [])) : x = a := by
  split at h
  · simpa using h
  · exact absurd h (List.not_mem_nil x)

/-- Any member of the backward-walk output is a member of the walked
list. -/
theorem mem_historyTake (mt total : ℚ) (l : List Message) (m : Message)
    (hm : m ∈ historyTake mt total l) : m ∈ l := by
  obtain ⟨n, _, htake, _, _⟩ := historyTake_spec mt total l
  rw [htake] at hm
  exact List.take_subset n l hm

/-- C10: when the message sequence holds several system messages (as
after a compaction inserted a synthetic system summary), the history
window keeps only the first one: every system-role member of its output
is the first system message. When simpleCompact fires (estimated usage
above target), every system-role member of its output is either the
first system message of the input or the synthetic summary message, so
later system messages are gone; and the local summary is invariant
under removing system messages, so their content never enters it. -/
theorem C10_later_system_dropped (ctx : AgentContext) (mt : ℚ)
    (messages : List Message) (options : CompactionOptions)
    (msgs2 : List Message) (focus : Option String)
    (hfire : compactionTarget options (compactionModel options)
      < estimateConversationTokens messages (compactionModel options)) :
    (∀ m, m ∈ getConversationHistory ctx mt → m.role = Role.system →
      firstSystem ctx = some m) ∧
    (∀ m, m ∈ (simpleCompact messages options).messages → m.role = Role.system →
      firstSystemIn messages = some m ∨
      ∃ s, (simpleCompact messages options).summary = some s ∧
        m = ⟨Role.system, "[Previous conversation summary]:\n" ++ s⟩) ∧
    createLocalSummary (msgs2.filter (fun m => m.role ≠ Role.system)) focus
      = createLocalSummary msgs2 focus := by
  refine ⟨?_, ?_, ?_⟩
  · intro m hm hrole
    simp only [getConversationHistory, List.mem_append] at hm
    rcases hm with hm | hm
    · rcases hsys : ctx.messages.find? (fun m => m.role = Role.system) with _ | ms
      · rw [hsys] at hm
        simp at hm
      · rw [hsys] at hm
        simp only [Option.toList_some, List.mem_singleton] at hm
        subst hm
        exact hsys
    · exfalso
      rw [List.mem_reverse] at hm
      have hmem := mem_historyTake _ _ _ _ hm
      rw [List.mem_reverse] at hmem
      have := List.of_mem_filter hmem
      simp [hrole] at this
  · intro m hm hrole
    have hc : ¬ (estimateConversationTokens messages (compactionModel options)
        ≤ compactionTarget options (compactionModel options)) := not_le.mpr hfire
    simp only [simpleCompact, hc, if_false, ite_false] at hm ⊢
    simp only [List.append_assoc, List.mem_append] at hm
    rcases hm with hm | hm | hm
    · left
      rcases hsys : messages.find? (fun m => m.role = Role.system) with _ | ms
      · rw [hsys] at hm
        simp at hm
      · rw [hsys] at hm
        simp only [Option.toList_some, List.mem_singleton] at hm
        subst hm
        exact hsys
    · exact Or.inr ⟨_, rfl, mem_ite_singleton hm⟩
    · exfalso
      have hmem : m ∈ messages.filter (fun m => m.role ≠ Role.system) := by
        unfold recentOf at hm
        split at hm
        · exact hm
        · exact List.drop_subset _ _ hm
      have := List.of_mem_filter hmem
      simp [hrole] at this
  · simp only [createLocalSummary, filterMap_userLine_filter, flatMap_assistantLines_filter]

/-- Witness for C10: with two system messages and a forced compaction,
the second system message survives neither the history window nor
simpleCompact. -/
theorem C10_later_system_dropped_witness :
    (⟨Role.system, "s2"⟩ : Message) ∉
      getConversationHistory
        { messages := [⟨Role.system, "s1"⟩, ⟨Role.user, "u1"⟩, ⟨Role.system, "s2"⟩],
          taskProgress := 0 } 8000 ∧
    (⟨Role.system, "s2"⟩ : Message) ∉
      (simpleCompact [⟨Role.system, "s1"⟩, ⟨Role.user, "u1"⟩, ⟨Role.system, "s2"⟩]
        { targetTokens := some 1 }).messages := by
  obtain ⟨ha, hb, -⟩ :=
    C10_later_system_dropped
      { messages := [⟨Role.system, "s1"⟩, ⟨Role.user, "u1"⟩, ⟨Role.system, "s2"⟩],
        taskProgress := 0 } 8000
      [⟨Role.system, "s1"⟩, ⟨Role.user, "u1"⟩, ⟨Role.system, "s2"⟩]
      { targetTokens := some 1 } [] none (by decide)
  constructor
  · intro hmem
    exact absurd (ha _ hmem rfl) (by decide)
  · intro hmem
    rcases hb _ hmem rfl with h | ⟨s, hs, he⟩
    · exact absurd h (by decide)
    · have hsum : (simpleCompact
          [⟨Role.system, "s1"⟩, ⟨Role.user, "u1"⟩, ⟨Role.system, "s2"⟩]
          { targetTokens := some 1 }).summary = some "" := by decide
      rw [hsum] at hs
      cases hs
      exact absurd he (by decide)

/-! ## C1: compaction as a no-op under the target budget

simpleCompact checks the target and returns its input unchanged when
the estimate is at or under it. llmCompact never computes a target: with
a usable provider and model and more than keepRecent non-system
messages it compacts unconditionally, which refutes the claim for the
LLM-assisted strategy; it behaves as a no-op under target only on the
paths that delegate to simpleCompact. -/

/-- Under the target, simpleCompact returns the input and zero
savings. -/
theorem simpleCompact_noop (messages : List Message) (options : CompactionOptions)
    (h : estimateConversationTokens messages (compactionModel options)
      ≤ compactionTarget options (compactionModel options)) :
    simpleCompact messages options
      = { messages := messages,
          originalTokens := estimateConversationTokens messages (compactionModel options),
          compactedTokens := estimateConversationTokens messages (compactionModel options),
          savedTokens := 0, savedPercentage := 0 } := by
  simp only [simpleCompact]
  rw [if_pos h]

/-- llmCompact delegates to simpleCompact exactly when the provider or
the model is missing, the model string is empty (falsy), or there are
no old messages to summarize. -/
theorem llmCompact_fallback (messages : List Message) (options : CompactionOptions)
    (h : options.provider = none ∨ options.model = none ∨ options.model = some "" ∨
      oldOf (messages.filter (fun m => m.role ≠ Role.system))
        (options.keepRecent.getD 4) = []) :
    llmCompact messages options = simpleCompact messages options := by
  obtain ⟨focus, targetTokens, keepRecent, provider, model⟩ := options
  cases provider with
  | none => rfl
  | some p =>
    cases model with
    | none => rfl
    | some m =>
      simp only [llmCompact]
      rcases h with h | h | h | h
      · exact absurd h (by simp)
      · exact absurd h (by simp)
      · simp only [Option.some.injEq] at h
        rw [if_pos h]
      · by_cases hm : m = ""
        · rw [if_pos hm]
        · rw [if_neg hm]
          split

          · rfl
          · next hcontra => exact absurd h hcontra

/-- C1 counterexample: a conversation of six short user messages is far
under the default target (half the 8192 default context limit), yet
llmCompact with a provider and model rewrites it and reports nonzero
saved tokens — the claim that llmCompact is a no-op at or under the
target is false. -/
theorem C1_llmCompact_not_noop_counterexample :
    estimateConversationTokens
      [⟨Role.user, "aaaaaaaaaa"⟩, ⟨Role.user, "aaaaaaaaaa"⟩, ⟨Role.user, "hi"⟩,
       ⟨Role.user, "hi"⟩, ⟨Role.user, "hi"⟩, ⟨Role.user, "hi"⟩] "default"
      ≤ getContextLimit "default" / 2 ∧
    (llmCompact
      [⟨Role.user, "aaaaaaaaaa"⟩, ⟨Role.user, "aaaaaaaaaa"⟩, ⟨Role.user, "hi"⟩,
       ⟨Role.user, "hi"⟩, ⟨Role.user, "hi"⟩, ⟨Role.user, "hi"⟩]
      { provider := some (fun _ _ => Except.ok "S"), model := some "default" }).messages
      ≠ [⟨Role.user, "aaaaaaaaaa"⟩, ⟨Role.user, "aaaaaaaaaa"⟩, ⟨Role.user, "hi"⟩,
         ⟨Role.user, "hi"⟩, ⟨Role.user, "hi"⟩, ⟨Role.user, "hi"⟩] ∧
    (llmCompact
      [⟨Role.user, "aaaaaaaaaa"⟩, ⟨Role.user, "aaaaaaaaaa"⟩, ⟨Role.user, "hi"⟩,
       ⟨Role.user, "hi"⟩, ⟨Role.user, "hi"⟩, ⟨Role.user, "hi"⟩]
      { provider := some (fun _ _ => Except.ok "S"), model := some "default" }).savedTokens
      ≠ 0 := by
  refine ⟨by decide, by decide, by decide⟩

/-- C1 amended: compaction is a no-op with zero saved tokens when the
estimated usage is at or under the target for simpleCompact always, and
for llmCompact exactly on its fallback paths (missing or falsy provider
or model, or no messages older than the keepRecent window); with a
usable provider and model and old messages present, llmCompact compacts
regardless of the target. -/
theorem C1_compaction_noop_under_target (messages : List Message)
    (options : CompactionOptions)
    (h : estimateConversationTokens messages (compactionModel options)
      ≤ compactionTarget options (compactionModel options)) :
    (simpleCompact messages options).messages = messages ∧
    (simpleCompact messages options).savedTokens = 0 ∧
    ((options.provider = none ∨ options.model = none ∨ options.model = some "" ∨
        oldOf (messages.filter (fun m => m.role ≠ Role.system))
          (options.keepRecent.getD 4) = []) →
      (llmCompact messages options).messages = messages ∧
      (llmCompact messages options).savedTokens = 0) := by
  have hs := simpleCompact_noop messages options h
  refine ⟨by rw [hs], by rw [hs], ?_⟩
  intro hcase
  rw [llmCompact_fallback messages options hcase, hs]
  exact ⟨rfl, rfl⟩

/-- Witness for the amended C1 at a one-message conversation with
default options (no provider, no model): both strategies return the
input with zero savings. -/
theorem C1_compaction_noop_under_target_witness :
    (simpleCompact [⟨Role.user, "hi"⟩] {}).messages = [⟨Role.user, "hi"⟩] ∧
    (simpleCompact [⟨Role.user, "hi"⟩] {}).savedTokens = 0 ∧
    (llmCompact [⟨Role.user, "hi"⟩] {}).messages = [⟨Role.user, "hi"⟩] ∧
    (llmCompact [⟨Role.user, "hi"⟩] {}).savedTokens = 0 := by
  obtain ⟨h1, h2, h3⟩ :=
    C1_compaction_noop_under_target [⟨Role.user, "hi"⟩] {} (by decide)
  exact ⟨h1, h2, (h3 (Or.inl rfl)).1, (h3 (Or.inl rfl)).2⟩

/-! ## C5: the skill scoring and ranking rules -/

/-- The scoring rule exactly as the specification words it: 100 when the
trigger regex matches, else 80 when the lowercased skill name occurs in
the lowercased input, else the number of description keywords matched in
the input times 15, capped at 60. -/
def specScore (regexTest : String → String → Bool) (input : String) (sk : Skill) : Nat :=
  if (match sk.trigger with
      | some trig => regexTest trig input
      | none => false) then 100
  else if strIncludes (strToLower input) (strToLower sk.name) then 80
  else min 60 (15 * ((extractKeywords sk.description).filter
    (fun k => (extractKeywords input).contains k)).length)

/-- The keyword branch: score of the pair built by the source equals
the specification's capped product. -/
theorem pair_keyword_case (n : Nat) (str : String) :
    ((if 0 < n then (min 60 (n * 15), str) else ((0 : Nat), "")).1) = min 60 (15 * n) := by
  by_cases h : 0 < n
  · simp [h, Nat.mul_comm]
  · simp [Nat.eq_zero_of_not_pos h]

/-- The loop-with-mutable-score of the source computes the
specification's first-rule-that-fires score. -/
theorem scoreSkill_fst (regexTest : String → String → Bool) (input : String) (sk : Skill) :
    (scoreSkill regexTest input sk).1 = specScore regexTest input sk := by
  unfold scoreSkill specScore
  cases htrig : sk.trigger with
  | none =>
    dsimp only
    rw [if_neg (show ¬ ((0 : Nat) ≠ 0) by simp),
      if_neg (show ¬ (false = true) by simp)]
    by_cases hinc : strIncludes (strToLower input) (strToLower sk.name)
    · rw [if_pos hinc, if_pos hinc]
    · rw [if_neg hinc, if_neg hinc]
      exact pair_keyword_case _ _
  | some trig =>
    dsimp only
    by_cases hrt : regexTest trig input
    · simp [hrt]
    · rw [if_neg hrt, if_neg hrt,
        if_neg (show ¬ ((((0 : Nat), "") : Nat × String).1 ≠ 0) by simp)]
      by_cases hinc : strIncludes (strToLower input) (strToLower sk.name)
      · rw [if_pos hinc, if_pos hinc]
      · rw [if_neg hinc, if_neg hinc]
        exact pair_keyword_case _ _

/-- Stable insertion permutes. -/
theorem insertByScoreDesc_perm (x : MatchResult) (l : List MatchResult) :
    List.Perm (insertByScoreDesc x l) (x :: l) := by
  induction l with
  | nil => exact List.Perm.refl _
  | cons y ys ih =>
    by_cases h : y.score ≤ x.score
    · rw [show insertByScoreDesc x (y :: ys) = x :: y :: ys by
        simp [insertByScoreDesc, h]]
    · rw [show insertByScoreDesc x (y :: ys) = y :: insertByScoreDesc x ys by
        simp [insertByScoreDesc, h]]
      exact (List.Perm.cons y ih).trans (List.Perm.swap x y ys)

/-- The sort permutes. -/
theorem sortByScoreDesc_perm (l : List MatchResult) :
    List.Perm (sortByScoreDesc l) l := by
  induction l with
  | nil => exact List.Perm.refl _
  | cons x xs ih =>
    exact (insertByScoreDesc_perm x (sortByScoreDesc xs)).trans (List.Perm.cons x ih)

/-- Insertion preserves the descending order. -/
theorem insertByScoreDesc_pairwise (x : MatchResult) (l : List MatchResult)
    (hl : l.Pairwise (fun a b => b.score ≤ a.score)) :
    (insertByScoreDesc x l).Pairwise (fun a b => b.score ≤ a.score) := by
  induction l with
  | nil => simp [insertByScoreDesc]
  | cons y ys ih =>
    rcases List.pairwise_cons.mp hl with ⟨hy, hys⟩
    by_cases h : y.score ≤ x.score
    · rw [show insertByScoreDesc x (y :: ys) = x :: y :: ys by
        simp [insertByScoreDesc, h]]
      refine List.pairwise_cons.mpr ⟨?_, hl⟩
      intro z hz
      rcases List.mem_cons.mp hz with rfl | hz2
      · exact h
      · exact le_trans (hy z hz2) h
    · rw [show insertByScoreDesc x (y :: ys) = y :: insertByScoreDesc x ys by
        simp [insertByScoreDesc, h]]
      refine List.pairwise_cons.mpr ⟨?_, ih hys⟩
      intro z hz
      have hz2 := (insertByScoreDesc_perm x ys).mem_iff.mp hz
      rcases List.mem_cons.mp hz2 with rfl | hz3
      · exact le_of_not_le h
      · exact hy z hz3

/-- The sort output is descending in score. -/
theorem sortByScoreDesc_pairwise (l : List MatchResult) :
    (sortByScoreDesc l).Pairwise (fun a b => b.score ≤ a.score) := by
  induction l with
  | nil => simp [sortByScoreDesc]
  | cons x xs ih => exact insertByScoreDesc_pairwise x (sortByScoreDesc xs) ih

/-- Inserting an element of score s prepends it to the score-s fiber:
everything the insertion walks past has a strictly larger score. -/
theorem insertByScoreDesc_filter_eq (x : MatchResult) (l : List MatchResult) (s : Nat)
    (hx : x.score = s) :
    (insertByScoreDesc x l).filter (fun r => r.score = s)
      = x :: l.filter (fun r => r.score = s) := by
  induction l with
  | nil =>
    show List.filter _ [x] = _
    rw [List.filter_cons_of_pos (by simpa using hx)]
  | cons y ys ih =>
    by_cases h : y.score ≤ x.score
    · rw [show insertByScoreDesc x (y :: ys) = x :: y :: ys by
        simp [insertByScoreDesc, h]]
      rw [List.filter_cons_of_pos (by simpa using hx)]
    · have hy : ¬ (y.score = s) := by
        intro hcon
        apply h
        rw [hcon, ← hx]
      rw [show insertByScoreDesc x (y :: ys) = y :: insertByScoreDesc x ys by
        simp [insertByScoreDesc, h]]
      rw [List.filter_cons_of_neg (by simpa using hy), ih,
        List.filter_cons_of_neg (by simpa using hy)]

/-- Inserting an element of another score leaves the score-s fiber
unchanged. -/
theorem insertByScoreDesc_filter_ne (x : MatchResult) (l : List MatchResult) (s : Nat)
    (hx : ¬ (x.score = s)) :
    (insertByScoreDesc x l).filter (fun r => r.score = s)
      = l.filter (fun r => r.score = s) := by
  induction l with
  | nil =>
    show List.filter _ [x] = _
    rw [List.filter_cons_of_neg (by simpa using hx)]
  | cons y ys ih =>
    by_cases h : y.score ≤ x.score
    · rw [show insertByScoreDesc x (y :: ys) = x :: y :: ys by
        simp [insertByScoreDesc, h]]
      rw [List.filter_cons_of_neg (by simpa using hx)]
    · rw [show insertByScoreDesc x (y :: ys) = y :: insertByScoreDesc x ys by
        simp [insertByScoreDesc, h]]
      by_cases hy : y.score = s
      · rw [List.filter_cons_of_pos (by simpa using hy), ih,
          List.filter_cons_of_pos (by simpa using hy)]
      · rw [List.filter_cons_of_neg (by simpa using hy), ih,
          List.filter_cons_of_neg (by simpa using hy)]

/-- Stability: the sort preserves each equal-score fiber in input
order. -/
theorem sortByScoreDesc_filter (l : List MatchResult) (s : Nat) :
    (sortByScoreDesc l).filter (fun r => r.score = s)
      = l.filter (fun r => r.score = s) := by
  induction l with
  | nil => rfl
  | cons x xs ih =>
    by_cases hx : x.score = s
    · rw [show sortByScoreDesc (x :: xs) = insertByScoreDesc x (sortByScoreDesc xs) from rfl,
        insertByScoreDesc_filter_eq x _ s hx, ih,
        List.filter_cons_of_pos (by simpa using hx)]
    · rw [show sortByScoreDesc (x :: xs) = insertByScoreDesc x (sortByScoreDesc xs) from rfl,
        insertByScoreDesc_filter_ne x _ s hx, ih,
        List.filter_cons_of_neg (by simpa using hx)]

/-- C5: every entry of matchSkills carries the first-rule-that-fires
score of its skill and a positive score; every skill with a positive
specification score appears; the output is sorted descending by score;
equal-score entries keep the input-order fiber (stability of the sort
against the unsorted collection pass, which scans skills in input
order); and findBestSkill is none exactly when the match list is
empty. -/
theorem C5_match_ranking (regexTest : String → String → Bool) (input : String)
    (skills : List Skill) :
    (∀ r ∈ matchSkills regexTest input skills,
      r.score = specScore regexTest input r.skill ∧ 0 < r.score ∧ r.skill ∈ skills) ∧
    (∀ sk ∈ skills, 0 < specScore regexTest input sk →
      ∃ r ∈ matchSkills regexTest input skills, r.skill = sk) ∧
    (matchSkills regexTest input skills).Pairwise (fun a b => b.score ≤ a.score) ∧
    (∀ s, (matchSkills regexTest input skills).filter (fun r => r.score = s)
      = (collectResults regexTest input skills).filter (fun r => r.score = s)) ∧
    (findBestSkill regexTest input skills = none
      ↔ matchSkills regexTest input skills = []) := by
  refine ⟨?_, ?_, sortByScoreDesc_pairwise _, fun s => sortByScoreDesc_filter _ s, ?_⟩
  · intro r hr
    have hrc : r ∈ collectResults regexTest input skills :=
      (sortByScoreDesc_perm _).mem_iff.mp hr
    rcases List.mem_filterMap.mp hrc with ⟨sk, hsk, hf⟩
    by_cases hpos : 0 < (scoreSkill regexTest input sk).1
    · rw [if_pos hpos] at hf
      cases hf
      exact ⟨(scoreSkill_fst regexTest input sk).symm ▸ rfl, hpos, hsk⟩
    · rw [if_neg hpos] at hf
      cases hf
  · intro sk hsk hpos
    have hpos' : 0 < (scoreSkill regexTest input sk).1 := by
      rw [scoreSkill_fst]
      exact hpos
    have hmem : (⟨sk, (scoreSkill regexTest input sk).1,
        (scoreSkill regexTest input sk).2⟩ : MatchResult)
        ∈ collectResults regexTest input skills := by
      apply List.mem_filterMap.mpr
      exact ⟨sk, hsk, by rw [if_pos hpos']⟩
    exact ⟨_, (sortByScoreDesc_perm _).mem_iff.mpr hmem, rfl⟩
  · unfold findBestSkill
    cases matchSkills regexTest input skills with
    | nil => simp
    | cons r rs => simp

/-- A regex engine stub that never matches (no skills under test carry
triggers). -/
def rtNone : String → String → Bool := fun _ _ => false

def testerSkill : Skill :=
  { name := "tester", description := "helps you test code quality",
    trigger := none, template := "" }

/-- Witness for C5: a keyword-scored skill receives the capped product
score through the ranking, and an input matching nothing yields no best
skill. -/
theorem C5_match_ranking_witness :
    specScore rtNone "i want to test the code" testerSkill = 30 ∧
    findBestSkill rtNone "random unrelated text" [] = none := by
  obtain ⟨h1, -, -, -, -⟩ :=
    C5_match_ranking rtNone "i want to test the code" [testerSkill]
  obtain ⟨-, -, -, -, h5⟩ :=
    C5_match_ranking rtNone "random unrelated text" ([] : List Skill)
  constructor
  · have hm := h1 ⟨testerSkill, 30, "Matched keywords: test, code"⟩ (by decide)
    exact hm.1.symm
  · exact h5.mpr rfl

/-! ## C3: termination behaviour of the turn loop -/

theorem dropWhile_singleton_length (p : Nat → Bool) (a : Nat) :
    (List.dropWhile p [a]).length ≤ 1 := by
  cases hp : p a <;> simp [List.dropWhile, hp]

/-- On a successful run the loop body can add at most one turn per unit
of fuel. -/
theorem runAgentGo_turns_le (regexTest : String → String → Bool) (provider : ChatFn)
    (model initialPrompt : String) (sc : Option (AgentContext → ContinueDecision))
    (clock : Nat → Nat) (mt : Nat) :
    ∀ fuel turnCount sw ctx out,
      runAgentGo regexTest provider model initialPrompt sc clock mt
        fuel turnCount sw ctx = Except.ok out →
      out.turns ≤ turnCount + fuel := by
  intro fuel
  induction fuel with
  | zero =>
    intro tc sw ctx out h
    simp only [runAgentGo] at h
    cases h
    dsimp only
    omega
  | succ n ih =>
    intro tc sw ctx out h
    simp only [runAgentGo] at h
    cases hb : turnBody regexTest provider model initialPrompt ctx with
    | error e =>
      rw [hb] at h
      exact Except.noConfusion h
    | ok ctx1 =>
      rw [hb] at h
      dsimp only at h
      split at h
      · cases h
        dsimp only
        omega
      · split at h
        · have := ih _ _ _ _ h
          omega
        · split at h
          · cases h
            dsimp only
            omega
          · cases h
            dsimp only
            omega

/-- With no continuation policy a successful iteration stops right after
its first turn. -/
theorem runAgentGo_none_stops (regexTest : String → String → Bool) (provider : ChatFn)
    (model initialPrompt : String) (clock : Nat → Nat) (mt n tc : Nat) (sw : List Nat)
    (ctx : AgentContext) (out : RunResult)
    (h : runAgentGo regexTest provider model initialPrompt none clock mt
      (n + 1) tc sw ctx = Except.ok out) :
    out.turns = tc + 1 := by
  simp only [runAgentGo] at h
  cases hb : turnBody regexTest provider model initialPrompt ctx with
  | error e =>
    rw [hb] at h
    exact Except.noConfusion h
  | ok ctx1 =>
    rw [hb] at h
    dsimp only at h
    cases h
    rfl

/-- With a policy that always stops, a successful iteration started with
an empty stop window ends after one turn carrying the policy's
reason. -/
theorem runAgentGo_always_stop (regexTest : String → String → Bool) (provider : ChatFn)
    (model initialPrompt reason : String) (clock : Nat → Nat) (mt n tc : Nat)
    (ctx : AgentContext) (out : RunResult)
    (h : runAgentGo regexTest provider model initialPrompt
      (some (fun _ => ⟨false, reason⟩)) clock mt (n + 1) tc [] ctx = Except.ok out) :
    out.turns = tc + 1 ∧ out.stopReason = some reason := by
  simp only [runAgentGo] at h
  cases hb : turnBody regexTest provider model initialPrompt ctx with
  | error e =>
    rw [hb] at h
    exact Except.noConfusion h
  | ok ctx1 =>
    rw [hb] at h
    dsimp only at h
    rw [if_neg (show ¬ (false = true) by simp)] at h
    rw [if_neg ?wlen] at h
    case wlen =>
      intro hcon
      have h1 : (dropOldStops ([] ++ [clock tc]) (clock tc - 5 * 60 * 1000)).length ≤ 1 := by
        unfold dropOldStops
        rw [List.nil_append]
        exact dropWhile_singleton_length _ _
      omega
    cases h
    exact ⟨rfl, rfl⟩

/-- C3: on a successful run, the loop executes exactly one turn when no
continuation policy is supplied (and the turn budget admits at least
one turn); it never executes more than maxTurns turns whatever the
policy; and with maxTurns 5 and a policy that always answers do not
continue, it ends after exactly one turn with that reason surfaced in
the result. -/
theorem C3_run_termination (initialPrompt : String) (ctx : AgentContext)
    (provider : ChatFn) (model : String) (regexTest : String → String → Bool)
    (systemPrompt : Option String) (maxTurns : Option Nat) (clock : Nat → Nat) :
    (∀ out, runAgent initialPrompt ctx provider model regexTest systemPrompt maxTurns
        none clock = Except.ok out → 0 < maxTurns.getD 10 → out.turns = 1) ∧
    (∀ sc out, runAgent initialPrompt ctx provider model regexTest systemPrompt maxTurns
        sc clock = Except.ok out → out.turns ≤ maxTurns.getD 10) ∧
    (∀ reason out, runAgent initialPrompt ctx provider model regexTest systemPrompt
        (some 5) (some (fun _ => ⟨false, reason⟩)) clock = Except.ok out →
      out.turns = 1 ∧ out.stopReason = some reason) := by
  refine ⟨?_, ?_, ?_⟩
  · intro out h hpos
    unfold runAgent at h
    rcases hmt : maxTurns.getD 10 with _ | n
    · omega
    · rw [hmt] at h
      exact runAgentGo_none_stops _ _ _ _ _ _ _ _ _ _ _ h
  · intro sc out h
    unfold runAgent at h
    have := runAgentGo_turns_le regexTest provider model initialPrompt sc clock
      (maxTurns.getD 10) (maxTurns.getD 10) 0 [] _ out h
    omega
  · intro reason out h
    unfold runAgent at h
    exact runAgentGo_always_stop _ _ _ _ _ _ _ _ _ _ _ h

/-- Turn count of a run result, observing only the Except constructor
and the turns field. -/
def runTurnsOf (r : Except String RunResult) : Option Nat :=
  match r with
  | Except.ok out => some out.turns
  | Except.error _ => none

/-- Turn count and stop reason of a run result. -/
def runOutcomeOf (r : Except String RunResult) : Option (Nat × Option String) :=
  match r with
  | Except.ok out => some (out.turns, out.stopReason)
  | Except.error _ => none

/-- Witness for C3 at a concrete run: a constant provider, no skills,
an always-false policy in the second part; only the turn count and stop
reason of the results are forced. -/
theorem C3_run_termination_witness :
    runTurnsOf (runAgent "hello" (createAgentContext []) (fun _ _ => Except.ok "reply")
      "m" (fun _ _ => false) none none none (fun _ => 0)) = some 1 ∧
    runOutcomeOf (runAgent "hello" (createAgentContext []) (fun _ _ => Except.ok "reply")
      "m" (fun _ _ => false) none (some 5) (some (fun _ => ⟨false, "done"⟩))
      (fun _ => 0)) = some (1, some "done") := by
  obtain ⟨h1, h2, h3⟩ :=
    C3_run_termination "hello" (createAgentContext []) (fun _ _ => Except.ok "reply")
      "m" (fun _ _ => false) none none (fun _ => 0)
  constructor
  · cases hrun : runAgent "hello" (createAgentContext []) (fun _ _ => Except.ok "reply")
        "m" (fun _ _ => false) none none none (fun _ => 0) with
    | error e =>
      have hd : runTurnsOf (runAgent "hello" (createAgentContext [])
          (fun _ _ => Except.ok "reply") "m" (fun _ _ => false) none none none
          (fun _ => 0)) = some 1 := by decide
      rw [hrun] at hd
      simp [runTurnsOf] at hd
    | ok out =>
      simp [runTurnsOf, h1 out hrun (by norm_num)]
  · cases hrun : runAgent "hello" (createAgentContext []) (fun _ _ => Except.ok "reply")
        "m" (fun _ _ => false) none (some 5) (some (fun _ => ⟨false, "done"⟩))
        (fun _ => 0) with
    | error e =>
      have hd : runOutcomeOf (runAgent "hello" (createAgentContext [])
          (fun _ _ => Except.ok "reply") "m" (fun _ _ => false) none (some 5)
          (some (fun _ => ⟨false, "done"⟩)) (fun _ => 0)) = some (1, some "done") := by
        decide
      rw [hrun] at hd
      simp [runOutcomeOf] at hd
    | ok out =>
      obtain ⟨ht, hr⟩ := h3 "done" out hrun
      simp [runOutcomeOf, ht, hr]

/-! ## Pool infrastructure lemmas -/

/-- Point update of the task map: looking up tid sees the update, any
other id is untouched (all updates preserve ids). -/
theorem find?_id_map (tasks : List SubagentTask) (f : SubagentTask → SubagentTask)
    (hf : ∀ t, (f t).id = t.id) (tid tid' : Nat) :
    (tasks.map (fun t => if t.id = tid' then f t else t)).find? (fun t => t.id = tid)
      = if tid = tid' then Option.map f (tasks.find? (fun t => t.id = tid))
        else tasks.find? (fun t => t.id = tid) := by
  induction tasks with
  | nil => split <;> simp
  | cons t rest ih =>
    by_cases h1 : t.id = tid'
    · by_cases h2 : tid = tid'
      · subst h2
        rw [if_pos rfl]
        rw [List.find?_cons_of_pos _ (by simpa using h1)]
        simp only [List.map_cons, if_pos h1]
        rw [List.find?_cons_of_pos _ (by simp [hf, h1])]
        rfl
      · have h3 : ¬ (t.id = tid) := fun hh => h2 (hh ▸ h1 ▸ rfl)
        have h4 : ¬ ((f t).id = tid) := by
          rw [hf, h1]
          exact fun hh => h2 hh.symm
        simp only [List.map_cons, if_pos h1]
        rw [if_neg h2]
        rw [List.find?_cons_of_neg _ (by simpa using h4),
          List.find?_cons_of_neg _ (by simpa using h3)]
        have := ih
        rw [if_neg h2] at this
        exact this
    · simp only [List.map_cons, if_neg h1]
      by_cases h3 : t.id = tid
      · have h2 : ¬ (tid = tid') := fun hh => h1 (h3.trans hh)
        rw [if_neg h2]
        rw [List.find?_cons_of_pos _ (by simpa using h3),
          List.find?_cons_of_pos _ (by simpa using h3)]
      · rw [List.find?_cons_of_neg _ (by simpa using h3),
          List.find?_cons_of_neg _ (by simpa using h3)]
        exact ih

/-- Rewriting a task map point update under unique ids: the status
census moves exactly by the updated task's transition. -/
theorem countStatus_map_update (tasks : List SubagentTask) (tid : Nat)
    (f : SubagentTask → SubagentTask) (t0 : SubagentTask)
    (hnodup : (tasks.map (fun t => t.id)).Nodup)
    (hfind : tasks.find? (fun t => t.id = tid) = some t0) (st : TaskStatus) :
    countStatus (tasks.map (fun t => if t.id = tid then f t else t)) st
      + (if t0.status = st then 1 else 0)
      = countStatus tasks st + (if (f t0).status = st then 1 else 0) := by
  induction tasks with
  | nil => simp at hfind
  | cons t rest ih =>
    rw [List.map_cons, List.nodup_cons] at hnodup
    obtain ⟨hnotin, hnodup2⟩ := hnodup
    by_cases h1 : t.id = tid
    · rw [List.find?_cons_of_pos _ (by simpa using h1)] at hfind
      cases hfind
      have hrest : rest.map (fun r => if r.id = tid then f r else r) = rest := by
        have hpt : ∀ r ∈ rest, (if r.id = tid then f r else r) = id r := by
          intro r hr
          rw [if_neg, id]
          intro hcon
          exact hnotin (List.mem_map.mpr ⟨r, hr, by rw [hcon, h1]⟩)
        rw [List.map_congr_left hpt, List.map_id]
      simp only [List.map_cons, if_pos h1, hrest]
      by_cases ha : (f t0).status = st <;> by_cases hb : t0.status = st <;>
        simp [countStatus, List.filter_cons, ha, hb]
    · rw [List.find?_cons_of_neg _ (by simpa using h1)] at hfind
      have hih := ih hnodup2 hfind
      simp only [countStatus] at hih
      simp only [List.map_cons, if_neg h1]
      by_cases hb : t.status = st <;>
        simp [countStatus, List.filter_cons, hb] <;>
        omega

theorem getTask_startTask_ne (s : PoolState) (tid tid' : Nat) (h : tid ≠ tid') :
    getTask (startTask s tid') tid = getTask s tid := by
  unfold getTask startTask
  dsimp only
  rw [find?_id_map s.tasks (fun t => { t with status := TaskStatus.running })
    (fun t => rfl) tid tid', if_neg h]

theorem getTask_startTask_self (s : PoolState) (tid : Nat) :
    getTask (startTask s tid) tid
      = Option.map (fun t => { t with status := TaskStatus.running }) (getTask s tid) := by
  unfold getTask startTask
  dsimp only
  rw [find?_id_map s.tasks (fun t => { t with status := TaskStatus.running })
    (fun t => rfl) tid tid, if_pos rfl]

/-- The queue drain never touches a task that is not pending. -/
theorem getTask_processQueueGo_stable (l : List Nat) :
    ∀ (s : PoolState) (tid : Nat) (t : SubagentTask),
      getTask s tid = some t → ¬ (t.status = TaskStatus.pending) →
      getTask (processQueueGo s l) tid = some t := by
  induction l with
  | nil =>
    intro s tid t ht _
    exact ht
  | cons tid2 rest ih =>
    intro s tid t ht hnp
    cases hfind : s.tasks.find? (fun x => x.id = tid2) with
    | none =>
      simp only [processQueueGo, hfind]
      exact ih s tid t ht hnp
    | some t2 =>
      simp only [processQueueGo, hfind]
      by_cases hp : t2.status = TaskStatus.pending
      · rw [if_pos hp]
        have hne : tid ≠ tid2 := by
          intro hcon
          subst hcon
          unfold getTask at ht
          rw [ht] at hfind
          cases hfind
          exact hnp hp
        have hstable : getTask (startTask s tid2) tid = some t := by
          rw [getTask_startTask_ne s tid tid2 hne]
          exact ht
        split
        · exact hstable
        · exact ih _ tid t hstable hnp
      · rw [if_neg hp]
        exact ih s tid t ht hnp

theorem getTask_processQueue_stable (s : PoolState) (tid : Nat) (t : SubagentTask)
    (ht : getTask s tid = some t) (hnp : ¬ (t.status = TaskStatus.pending)) :
    getTask (processQueue s) tid = some t := by
  unfold processQueue
  split
  · exact ht
  · exact getTask_processQueueGo_stable _ s tid t ht hnp

theorem processQueueGo_max (l : List Nat) :
    ∀ s : PoolState, (processQueueGo s l).maxConcurrent = s.maxConcurrent := by
  induction l with
  | nil => intro s; rfl
  | cons tid rest ih =>
    intro s
    cases hfind : s.tasks.find? (fun x => x.id = tid) with
    | none =>
      simp only [processQueueGo, hfind]
      exact ih s
    | some t =>
      simp only [processQueueGo, hfind]
      by_cases hp : t.status = TaskStatus.pending
      · rw [if_pos hp]
        split
        · rfl
        · exact ih _
      · rw [if_neg hp]
        exact ih s

theorem startTask_running_le (s : PoolState) (tid : Nat) :
    (startTask s tid).running.length ≤ s.running.length + 1 := by
  unfold startTask
  dsimp only
  split
  · exact Nat.le_succ _
  · simp

/-- The queue drain keeps the running set at or under the limit once it
starts under it. -/
theorem processQueueGo_running_le (l : List Nat) :
    ∀ s : PoolState, s.running.length < s.maxConcurrent →
      (processQueueGo s l).running.length ≤ s.maxConcurrent := by
  induction l with
  | nil =>
    intro s h
    exact le_of_lt h
  | cons tid rest ih =>
    intro s h
    cases hfind : s.tasks.find? (fun x => x.id = tid) with
    | none =>
      simp only [processQueueGo, hfind]
      exact ih s h
    | some t =>
      simp only [processQueueGo, hfind]
      by_cases hp : t.status = TaskStatus.pending
      · rw [if_pos hp]
        have hb := startTask_running_le s tid
        split
        · omega
        · next hcond =>
          have := ih (startTask s tid) (by
            have hmax : (startTask s tid).maxConcurrent = s.maxConcurrent := rfl
            omega)
          rw [show (startTask s tid).maxConcurrent = s.maxConcurrent from rfl] at this
          exact this
      · rw [if_neg hp]
        exact ih s h

/-- A start from strictly under the limit stays at or under it. -/
theorem startTask_le_max (x : PoolState) (tid : Nat)
    (h : x.running.length < x.maxConcurrent) :
    (startTask x tid).running.length ≤ x.maxConcurrent := by
  have := startTask_running_le x tid
  omega

/-- One pool operation preserves the concurrency bound and the
configured limit. -/
theorem applyOp_inv (s : PoolState) (op : PoolOp)
    (h : s.running.length ≤ s.maxConcurrent) :
    (applyOp s op).running.length ≤ (applyOp s op).maxConcurrent ∧
    (applyOp s op).maxConcurrent = s.maxConcurrent := by
  cases op with
  | spawnOp p m =>
    simp only [applyOp, spawn]
    split
    · next hlt => exact ⟨startTask_le_max _ _ hlt, rfl⟩
    · exact ⟨h, rfl⟩
  | finishOp tid outcome =>
    simp only [applyOp, finishTask, processQueue]
    have hfil : (s.running.filter (fun i => i ≠ tid)).length ≤ s.running.length :=
      List.length_filter_le _ _
    split
    · next hge => exact ⟨le_trans hfil h, rfl⟩
    · next hlt =>
      constructor
      · rw [processQueueGo_max]
        exact processQueueGo_running_le _ _ (Nat.lt_of_not_le hlt)
      · exact processQueueGo_max _ _

/-- C2 invariant half: along any history of spawns and finishes from a
fresh pool the running set never exceeds the limit. -/
theorem applyOps_inv (ops : List PoolOp) :
    ∀ s : PoolState, s.running.length ≤ s.maxConcurrent →
      (applyOps s ops).running.length ≤ (applyOps s ops).maxConcurrent ∧
      (applyOps s ops).maxConcurrent = s.maxConcurrent := by
  induction ops with
  | nil => exact fun s h => ⟨h, rfl⟩
  | cons op rest ih =>
    intro s h
    obtain ⟨h1, h2⟩ := applyOp_inv s op h
    obtain ⟨h3, h4⟩ := ih (applyOp s op) h1
    exact ⟨h3, h4.trans h2⟩

/-- The state reached by N spawns into a fresh pool with positive limit
max: tasks 0..N-1 in spawn order, the first min N max of them running
and the rest pending, the running set holding exactly the started
ids. -/
def spawnedTask (max i : Nat) : SubagentTask :=
  { id := i, prompt := "task", model := "model",
    status := if i < max then TaskStatus.running else TaskStatus.pending }

def spawnManyState (max N : Nat) : PoolState :=
  { tasks := (List.range N).map (spawnedTask max),
    running := List.range (min N max),
    maxConcurrent := max,
    nextId := N }

theorem spawnMany_eq (max : Nat) (hmax : 0 < max) (N : Nat) :
    spawnMany (emptyPool max) N = spawnManyState max N := by
  induction N with
  | zero =>
    unfold spawnMany spawnManyState emptyPool
    rw [if_neg (by omega)]
    simp
  | succ n ih =>
    show (spawn (spawnMany (emptyPool max) n) "task" "model").1 = _
    rw [ih]
    unfold spawn spawnManyState
    dsimp only
    by_cases hlt : n < max
    · rw [if_pos (by
        simp only [List.length_range]
        omega)]
      unfold startTask
      dsimp only
      have hc : (List.range (min n max)).contains n = false := by
        simp
      rw [hc]
      simp only [Bool.false_eq_true, if_false]
      simp only [PoolState.mk.injEq]
      refine ⟨?_, ?_, trivial, trivial⟩
      · rw [List.map_append, List.range_succ, List.map_append, List.map_map]
        congr 1
        · apply List.map_congr_left
          intro i hi
          have hin : i < n := List.mem_range.mp hi
          show (if (spawnedTask max i).id = n then _ else _) = _
          rw [if_neg (by simp [spawnedTask]; omega)]
        · simp [spawnedTask, hlt]
      · rw [Nat.min_eq_left (Nat.le_of_lt hlt), Nat.min_eq_left (by omega : n + 1 ≤ max),
          List.range_succ]
    · rw [if_neg (by
        simp only [List.length_range]
        omega)]
      simp only [PoolState.mk.injEq]
      refine ⟨?_, ?_, trivial, trivial⟩
      · rw [List.range_succ, List.map_append]
        congr 1
        simp only [List.map_cons, List.map_nil, spawnedTask]
        rw [if_neg hlt]
      · congr 1
        omega

theorem countStatus_append (l1 l2 : List SubagentTask) (st : TaskStatus) :
    countStatus (l1 ++ l2) st = countStatus l1 st + countStatus l2 st := by
  simp [countStatus, List.filter_append]

/-- Census of the freshly spawned pool: min N max running tasks and
N - max pending ones. -/
theorem countStatus_spawnManyState (max N : Nat) :
    countStatus ((List.range N).map (spawnedTask max)) TaskStatus.running = min N max ∧
    countStatus ((List.range N).map (spawnedTask max)) TaskStatus.pending = N - max := by
  induction N with
  | zero => simp [countStatus]
  | succ n ih =>
    obtain ⟨ih1, ih2⟩ := ih
    rw [List.range_succ, List.map_append]
    constructor
    · rw [countStatus_append, ih1]
      by_cases h : n < max
      · simp [countStatus, spawnedTask, h]
        omega
      · simp [countStatus, spawnedTask, h]
        omega
    · rw [countStatus_append, ih2]
      by_cases h : n < max
      · simp [countStatus, spawnedTask, h]
        omega
      · simp [countStatus, spawnedTask, h]
        omega

theorem range_find?_eq (N tid : Nat) (h : tid < N) :
    (List.range N).find? (fun i => i = tid) = some tid := by
  induction N with
  | zero => omega
  | succ n ih =>
    rw [List.range_succ, List.find?_append]
    by_cases hlt : tid < n
    · rw [ih hlt]
      rfl
    · have htid : tid = n := by omega
      subst htid
      have hnone : (List.range tid).find? (fun i => i = tid) = none := by
        rw [List.find?_eq_none]
        intro x hx
        simp only [List.mem_range] at hx
        simp
        omega
      rw [hnone]
      simp

/-- Lookup of an id inside the mapped range of task builders. -/
theorem find?_map_range (N : Nat) (g : Nat → SubagentTask) (hid : ∀ i, (g i).id = i)
    (tid : Nat) (h : tid < N) :
    ((List.range N).map g).find? (fun t => t.id = tid) = some (g tid) := by
  rw [List.find?_map]
  have hp : ((fun t => decide (t.id = tid)) ∘ g) = fun i => decide (i = tid) := by
    funext i
    simp [hid]
  rw [hp, range_find?_eq N tid h]
  rfl

/-- The ids of the spawned tasks are exactly the range, hence distinct. -/
theorem spawnManyState_ids (max N : Nat) :
    ((List.range N).map (spawnedTask max)).map (fun t => t.id) = List.range N := by
  rw [List.map_map]
  have : ((fun t => t.id) ∘ spawnedTask max) = fun i => i := by
    funext i
    rfl
  rw [this, List.map_id']

/-- The queue drain skips a prefix of ids whose tasks are not
pending. -/
theorem processQueueGo_skip (l1 : List Nat) (rest : List Nat) (s : PoolState)
    (h : ∀ tid ∈ l1, ∀ t, s.tasks.find? (fun x => x.id = tid) = some t →
      ¬ (t.status = TaskStatus.pending)) :
    processQueueGo s (l1 ++ rest) = processQueueGo s rest := by
  induction l1 with
  | nil => rfl
  | cons a l1' ih =>
    rw [List.cons_append]
    cases hfind : s.tasks.find? (fun x => x.id = a) with
    | none =>
      simp only [processQueueGo, hfind]
      exact ih (fun tid htid => h tid (List.mem_cons_of_mem a htid))
    | some t =>
      simp only [processQueueGo, hfind]
      rw [if_neg (h a (List.mem_cons_self a l1') t hfind)]
      exact ih (fun tid htid => h tid (List.mem_cons_of_mem a htid))

/-- The queue drain starts the first pending id it meets and stops when
that start fills the last free slot. -/
theorem processQueueGo_start (s : PoolState) (p : Nat) (rest : List Nat) (t : SubagentTask)
    (hfind : s.tasks.find? (fun x => x.id = p) = some t)
    (hp : t.status = TaskStatus.pending)
    (hstop : s.maxConcurrent ≤ (startTask s p).running.length) :
    processQueueGo s (p :: rest) = startTask s p := by
  simp only [processQueueGo, hfind]
  rw [if_pos hp,
    if_pos (show (startTask s p).maxConcurrent ≤ (startTask s p).running.length from hstop)]

theorem length_filter_ne_range (max tid : Nat) (h : tid < max) :
    ((List.range max).filter (fun i => i ≠ tid)).length = max - 1 := by
  have d : (List.range max).Nodup := List.nodup_range max
  have he := d.erase_eq_filter tid
  have hconv : List.filter (fun x => x != tid) (List.range max)
      = (List.range max).filter (fun i => decide (i ≠ tid)) := by
    apply List.filter_congr
    intro x _
    by_cases hxt : x = tid <;> simp [hxt]
  rw [hconv] at he
  rw [← he, List.length_erase_of_mem (List.mem_range.mpr h), List.length_range]

/-- The pre-drain state of finishTask on the fully spawned pool: the
finished task rewritten, its id removed from the running set. -/
def finishedPool (max N tid : Nat) (fin : SubagentTask → SubagentTask) : PoolState :=
  { spawnManyState max N with
    tasks := (spawnManyState max N).tasks.map (fun t => if t.id = tid then fin t else t),
    running := (spawnManyState max N).running.filter (fun i => i ≠ tid) }

/-- Core of the promotion argument: finishing any running task of the
fully spawned pool (through any terminal rewriting of that task) and
draining the queue starts exactly the first pending task, restoring max
running tasks and leaving one pending task fewer. -/
theorem finish_promote_aux (max N tid : Nat) (hmax : 0 < max) (hN : max < N)
    (htid : tid < max) (fin : SubagentTask → SubagentTask)
    (hfid : ∀ t, (fin t).id = t.id)
    (hfr : ∀ t, ¬ ((fin t).status = TaskStatus.running))
    (hfp : ∀ t, ¬ ((fin t).status = TaskStatus.pending)) :
    countStatus (processQueue (finishedPool max N tid fin)).tasks
      TaskStatus.running = max ∧
    countStatus (processQueue (finishedPool max N tid fin)).tasks
      TaskStatus.pending = N - max - 1 := by
  have hmin : min N max = max := by omega
  have hrun1 : (finishedPool max N tid fin).running
      = (List.range max).filter (fun i => i ≠ tid) := by
    unfold finishedPool spawnManyState
    dsimp only
    rw [hmin]
  have hrunlen : (finishedPool max N tid fin).running.length = max - 1 := by
    rw [hrun1, length_filter_ne_range max tid htid]
  have hgid : ∀ i, ((fun t => if t.id = tid then fin t else t) (spawnedTask max i)).id = i := by
    intro i
    by_cases h : (spawnedTask max i).id = tid
    · dsimp only
      rw [if_pos h, hfid]
      rfl
    · dsimp only
      rw [if_neg h]
      rfl
  have htasks1 : (finishedPool max N tid fin).tasks
      = (List.range N).map ((fun t => if t.id = tid then fin t else t) ∘ spawnedTask max) := by
    unfold finishedPool spawnManyState
    dsimp only
    rw [List.map_map]
  have hids : (finishedPool max N tid fin).tasks.map (fun t => t.id) = List.range N := by
    rw [htasks1, List.map_map]
    have hfun : ((fun t => t.id) ∘ (fun t => if t.id = tid then fin t else t) ∘ spawnedTask max)
        = fun i => i := by
      funext i
      exact hgid i
    rw [hfun, List.map_id']
  have hfind : ∀ j, j < N → (finishedPool max N tid fin).tasks.find? (fun x => x.id = j)
      = some (if (spawnedTask max j).id = tid then fin (spawnedTask max j)
          else spawnedTask max j) := by
    intro j hj
    rw [htasks1]
    exact find?_map_range N _ hgid j hj
  have hfind_max : (finishedPool max N tid fin).tasks.find? (fun x => x.id = max)
      = some (spawnedTask max max) := by
    rw [hfind max hN, if_neg (by
      show ¬ (max = tid)
      omega)]
  have hnodup1 : ((finishedPool max N tid fin).tasks.map (fun t => t.id)).Nodup := by
    rw [hids]
    exact List.nodup_range N
  have hmaxc : (finishedPool max N tid fin).maxConcurrent = max := rfl
  have hnotmem : max ∉ (List.range max).filter (fun i => i ≠ tid) := by
    intro hmem
    exact absurd (List.mem_range.mp (List.mem_of_mem_filter hmem)) (lt_irrefl max)
  have hstartrun : (startTask (finishedPool max N tid fin) max).running
      = (finishedPool max N tid fin).running ++ [max] := by
    unfold startTask
    dsimp only
    rw [if_neg]
    intro hc
    rw [hrun1] at hc
    simp only [List.contains_eq_any_beq, List.any_eq_true, beq_iff_eq] at hc
    obtain ⟨x, hx, hxe⟩ := hc
    subst hxe
    exact hnotmem hx
  have hstartlen : (startTask (finishedPool max N tid fin) max).running.length = max := by
    rw [hstartrun, List.length_append, hrunlen]
    simp
    omega
  have hstep : processQueue (finishedPool max N tid fin)
      = startTask (finishedPool max N tid fin) max := by
    unfold processQueue
    rw [if_neg (by
      rw [hmaxc, hrunlen]
      omega)]
    rw [hids]
    obtain ⟨k, hk⟩ : ∃ k, N = max + (k + 1) := ⟨N - max - 1, by omega⟩
    have hsplit : List.range N
        = List.range max ++ (max :: (List.range k).map ((fun x => max + x) ∘ Nat.succ)) := by
      rw [hk, List.range_add, List.range_succ_eq_map, List.map_cons, List.map_map,
        Nat.add_zero]
    rw [hsplit, processQueueGo_skip, processQueueGo_start _ _ _ (spawnedTask max max)
      hfind_max (by simp [spawnedTask]) (by rw [hmaxc, hstartlen])]
    intro j hj t hfnd
    have hj2 : j < max := List.mem_range.mp hj
    rw [hfind j (by omega)] at hfnd
    cases hfnd
    by_cases hjt : (spawnedTask max j).id = tid
    · rw [if_pos hjt]
      exact hfp _
    · rw [if_neg hjt]
      simp [spawnedTask, hj2]
  have hfind_s : (spawnManyState max N).tasks.find? (fun t => t.id = tid)
      = some (spawnedTask max tid) := by
    show ((List.range N).map (spawnedTask max)).find? (fun t => t.id = tid) = _
    exact find?_map_range N (spawnedTask max) (fun i => rfl) tid (by omega)
  have hnodup_s : ((spawnManyState max N).tasks.map (fun t => t.id)).Nodup := by
    show (((List.range N).map (spawnedTask max)).map (fun t => t.id)).Nodup
    rw [spawnManyState_ids]
    exact List.nodup_range N
  have hcount_s := countStatus_spawnManyState max N
  have hupd1r := countStatus_map_update (spawnManyState max N).tasks tid fin
    (spawnedTask max tid) hnodup_s hfind_s TaskStatus.running
  have hupd1p := countStatus_map_update (spawnManyState max N).tasks tid fin
    (spawnedTask max tid) hnodup_s hfind_s TaskStatus.pending
  have htid_status : (spawnedTask max tid).status = TaskStatus.running := by
    simp [spawnedTask, htid]
  have hmax_status : (spawnedTask max max).status = TaskStatus.pending := by
    simp [spawnedTask]
  have hupd2r := countStatus_map_update (finishedPool max N tid fin).tasks max
    (fun t => { t with status := TaskStatus.running }) (spawnedTask max max)
    hnodup1 hfind_max TaskStatus.running
  have hupd2p := countStatus_map_update (finishedPool max N tid fin).tasks max
    (fun t => { t with status := TaskStatus.running }) (spawnedTask max max)
    hnodup1 hfind_max TaskStatus.pending
  rw [hstep]
  have hstarttasks : (startTask (finishedPool max N tid fin) max).tasks
      = (finishedPool max N tid fin).tasks.map
        (fun t => if t.id = max then { t with status := TaskStatus.running } else t) := rfl
  rw [hstarttasks]
  have hf1 : (finishedPool max N tid fin).tasks
      = (spawnManyState max N).tasks.map (fun t => if t.id = tid then fin t else t) := rfl
  rw [htid_status] at hupd1r hupd1p
  rw [hmax_status] at hupd2r hupd2p
  rw [hmin] at hcount_s
  obtain ⟨hcr, hcp⟩ := hcount_s
  have hcsr : countStatus (spawnManyState max N).tasks TaskStatus.running = max := hcr
  have hcsp : countStatus (spawnManyState max N).tasks TaskStatus.pending = N - max := hcp
  rw [← hf1] at hupd1r hupd1p
  have e1 : (if TaskStatus.running = TaskStatus.running then 1 else 0) = 1 := rfl
  have e2 : (if TaskStatus.pending = TaskStatus.running then 1 else 0) = 0 := rfl
  have e3 : (if TaskStatus.pending = TaskStatus.pending then 1 else 0) = 1 := rfl
  have e4 : (if TaskStatus.running = TaskStatus.pending then 1 else 0) = 0 := rfl
  have e5 : (if (fin (spawnedTask max tid)).status = TaskStatus.running then 1 else 0) = 0 :=
    if_neg (hfr _)
  have e6 : (if (fin (spawnedTask max tid)).status = TaskStatus.pending then 1 else 0) = 0 :=
    if_neg (hfp _)
  rw [e1, e5] at hupd1r
  rw [e4, e6] at hupd1p
  rw [e2, e1] at hupd2r
  rw [e3, e4] at hupd2p
  constructor
  · omega
  · omega

/-- C2: spawning N tasks into a fresh pool with limit max < N (none
finishing in between) leaves exactly max tasks running and N - max
pending, with the running set full; finishing any running task (with
any outcome) drains the queue and promotes exactly one pending task,
restoring max running tasks and leaving N - max - 1 pending; and along
any history of spawns and finishes the running set never exceeds the
limit. -/
theorem C2_pool_concurrency (max N : Nat) (hmax : 0 < max) (hN : max < N) :
    statusCount (spawnMany (emptyPool max) N) TaskStatus.running = max ∧
    statusCount (spawnMany (emptyPool max) N) TaskStatus.pending = N - max ∧
    runningCount (spawnMany (emptyPool max) N) = max ∧
    (∀ tid outcome, tid ∈ (spawnMany (emptyPool max) N).running →
      statusCount (finishTask (spawnMany (emptyPool max) N) tid outcome)
        TaskStatus.running = max ∧
      statusCount (finishTask (spawnMany (emptyPool max) N) tid outcome)
        TaskStatus.pending = N - max - 1) ∧
    (∀ ops, runningCount (applyOps (emptyPool max) ops) ≤ max) := by
  have hmin : min N max = max := by omega
  have hcount := countStatus_spawnManyState max N
  rw [spawnMany_eq max hmax N]
  refine ⟨?_, ?_, ?_, ?_, ?_⟩
  · show countStatus ((List.range N).map (spawnedTask max)) TaskStatus.running = max
    rw [hcount.1, hmin]
  · exact hcount.2
  · show (List.range (min N max)).length = max
    rw [List.length_range, hmin]
  · intro tid outcome hmem
    have htid : tid < max := by
      have := List.mem_range.mp hmem
      omega
    cases outcome with
    | ok r =>
      have heq : finishTask (spawnManyState max N) tid (Except.ok r)
          = processQueue (finishedPool max N tid
            (fun t => { t with result := r, status := TaskStatus.completed })) := rfl
      rw [statusCount, statusCount, heq]
      exact finish_promote_aux max N tid hmax hN htid _
        (fun t => rfl) (fun t => by simp) (fun t => by simp)
    | error e =>
      have heq : finishTask (spawnManyState max N) tid (Except.error e)
          = processQueue (finishedPool max N tid
            (fun t => { t with error := some e, status := TaskStatus.failed })) := rfl
      rw [statusCount, statusCount, heq]
      exact finish_promote_aux max N tid hmax hN htid _
        (fun t => rfl) (fun t => by simp) (fun t => by simp)
  · intro ops
    obtain ⟨h1, h2⟩ := applyOps_inv ops (emptyPool max) (by simp [emptyPool])
    have h3 : (emptyPool max).maxConcurrent = max := by
      unfold emptyPool
      dsimp only
      rw [if_neg (by omega)]
    show (applyOps (emptyPool max) ops).running.length ≤ max
    omega

/-- Witness for C2: three spawns into a pool of limit two give two
running and one pending task; finishing running task 0 promotes the
pending one. -/
theorem C2_pool_concurrency_witness :
    statusCount (spawnMany (emptyPool 2) 3) TaskStatus.running = 2 ∧
    statusCount (spawnMany (emptyPool 2) 3) TaskStatus.pending = 1 ∧
    statusCount (finishTask (spawnMany (emptyPool 2) 3) 0 (Except.ok (some "r")))
      TaskStatus.running = 2 ∧
    statusCount (finishTask (spawnMany (emptyPool 2) 3) 0 (Except.ok (some "r")))
      TaskStatus.pending = 0 := by
  obtain ⟨h1, h2, h3, h4, h5⟩ := C2_pool_concurrency 2 3 (by norm_num) (by norm_num)
  obtain ⟨h6, h7⟩ := h4 0 (Except.ok (some "r")) (by decide)
  exact ⟨h1, h2, h6, h7⟩

/-- Finishing a known task records its outcome and a terminal status,
whatever else the queue drain starts. -/
theorem getTask_finishTask_self (s : PoolState) (tid : Nat)
    (outcome : Except String (Option String)) (t : SubagentTask)
    (ht : getTask s tid = some t) :
    getTask (finishTask s tid outcome) tid
      = some (match outcome with
          | Except.ok r => { t with result := r, status := TaskStatus.completed }
          | Except.error e => { t with error := some e, status := TaskStatus.failed }) := by
  cases outcome with
  | ok r =>
    have heq : finishTask s tid (Except.ok r)
        = processQueue
          { s with
            tasks := s.tasks.map (fun x =>
              if x.id = tid then { x with result := r, status := TaskStatus.completed } else x)
            running := s.running.filter (fun i => i ≠ tid) } := rfl
    rw [heq]
    apply getTask_processQueue_stable
    · unfold getTask
      dsimp only
      rw [find?_id_map s.tasks
        (fun x => { x with result := r, status := TaskStatus.completed })
        (fun x => rfl) tid tid, if_pos rfl]
      unfold getTask at ht
      rw [ht]
      rfl
    · simp
  | error e =>
    have heq : finishTask s tid (Except.error e)
        = processQueue
          { s with
            tasks := s.tasks.map (fun x =>
              if x.id = tid then { x with error := some e, status := TaskStatus.failed } else x)
            running := s.running.filter (fun i => i ≠ tid) } := rfl
    rw [heq]
    apply getTask_processQueue_stable
    · unfold getTask
      dsimp only
      rw [find?_id_map s.tasks
        (fun x => { x with error := some e, status := TaskStatus.failed })
        (fun x => rfl) tid tid, if_pos rfl]
      unfold getTask at ht
      rw [ht]
      rfl
    · simp

/-- Under unique ids, the lookup of a member task's id finds that
task. -/
theorem find?_of_mem_nodup (tasks : List SubagentTask)
    (hnodup : (tasks.map (fun t => t.id)).Nodup) (t2 : SubagentTask)
    (hmem : t2 ∈ tasks) :
    tasks.find? (fun x => x.id = t2.id) = some t2 := by
  induction tasks with
  | nil => cases hmem
  | cons a rest ih =>
    rw [List.map_cons, List.nodup_cons] at hnodup
    obtain ⟨hnotin, hnodup2⟩ := hnodup
    rcases List.mem_cons.mp hmem with rfl | hmem2
    · exact List.find?_cons_of_pos _ (by simp)
    · have hne : ¬ (a.id = t2.id) := by
        intro hcon
        exact hnotin (hcon ▸ List.mem_map.mpr ⟨t2, hmem2, rfl⟩)
      rw [List.find?_cons_of_neg _ (by simpa using hne)]
      exact ih hnodup2 hmem2

/-- C6: an error during a task's execution is caught and recorded: the
task ends failed with the thrown message in its error field; sibling
running tasks are untouched by the failure; a sibling can still finish
and complete afterwards; and spawn is total, merely appending a task,
so a task failure can never surface as an exception from spawn. -/
theorem C6_task_errors_swallowed (s : PoolState) (tid : Nat) (msg : String)
    (t : SubagentTask)
    (hnodup : (s.tasks.map (fun x => x.id)).Nodup)
    (ht : getTask s tid = some t) :
    getTask (finishTask s tid (Except.error msg)) tid
      = some { t with error := some msg, status := TaskStatus.failed } ∧
    (∀ t2, t2 ∈ s.tasks → t2.id ≠ tid → t2.status = TaskStatus.running →
      getTask (finishTask s tid (Except.error msg)) t2.id = some t2) ∧
    (∀ tid2 t2 res, getTask (finishTask s tid (Except.error msg)) tid2 = some t2 →
      getTask (finishTask (finishTask s tid (Except.error msg)) tid2 (Except.ok res)) tid2
        = some { t2 with result := res, status := TaskStatus.completed }) ∧
    (∀ (s' : PoolState) (p m : String),
      ((spawn s' p m).1).tasks.length = s'.tasks.length + 1) := by
  refine ⟨getTask_finishTask_self s tid (Except.error msg) t ht, ?_, ?_, ?_⟩
  · intro t2 hmem hne hrun
    have heq : finishTask s tid (Except.error msg)
        = processQueue
          { s with
            tasks := s.tasks.map (fun x =>
              if x.id = tid then { x with error := some msg, status := TaskStatus.failed } else x)
            running := s.running.filter (fun i => i ≠ tid) } := rfl
    rw [heq]
    apply getTask_processQueue_stable
    · unfold getTask
      dsimp only
      rw [find?_id_map s.tasks
        (fun x => { x with error := some msg, status := TaskStatus.failed })
        (fun x => rfl) t2.id tid, if_neg hne]
      exact find?_of_mem_nodup s.tasks hnodup t2 hmem
    · rw [hrun]
      simp
  · intro tid2 t2 res hfound
    exact getTask_finishTask_self _ tid2 (Except.ok res) t2 hfound
  · intro s' p m
    unfold spawn
    dsimp only
    split
    · simp [startTask]
    · simp

/-- Witness for C6: in the two-task pool with task 0 running, an error
finishing task 0 records the failure and leaves task 1 running; task 1
then completes normally. -/
theorem C6_task_errors_swallowed_witness :
    getTask (finishTask (spawnMany (emptyPool 2) 2) 0 (Except.error "boom")) 0
      = some { id := 0, prompt := "task", model := "model",
               status := TaskStatus.failed, result := none, error := some "boom" } ∧
    getTask (finishTask (spawnMany (emptyPool 2) 2) 0 (Except.error "boom")) 1
      = some { id := 1, prompt := "task", model := "model",
               status := TaskStatus.running, result := none, error := none } := by
  obtain ⟨h1, h2, h3, h4⟩ :=
    C6_task_errors_swallowed (spawnMany (emptyPool 2) 2) 0 "boom"
      { id := 0, prompt := "task", model := "model",
        status := TaskStatus.running, result := none, error := none }
      (by decide) (by decide)
  constructor
  · exact h1
  · exact h2
      { id := 1, prompt := "task", model := "model",
        status := TaskStatus.running, result := none, error := none }
      (by decide) (by decide) (by decide)

/-! ## C7: waitFor behaviour -/

theorem waitForAux_ok (observe : Nat → Option SubagentTask) :
    ∀ (fuel start j : Nat) (task : SubagentTask), j < fuel →
      (∀ k, k < j → ∃ tk, observe (start + k) = some tk ∧
        ¬ (isTerminal tk.status = true)) →
      observe (start + j) = some task → isTerminal task.status = true →
      waitForAux observe start fuel = Except.ok task := by
  intro fuel
  induction fuel with
  | zero =>
    intro start j task hj
    omega
  | succ n ih =>
    intro start j task hj hbefore hobs hterm
    cases j with
    | zero =>
      rw [Nat.add_zero] at hobs
      simp only [waitForAux, hobs]
      rw [if_pos hterm]
    | succ j2 =>
      obtain ⟨t0, hobs0, hnt0⟩ := hbefore 0 (Nat.succ_pos j2)
      rw [Nat.add_zero] at hobs0
      simp only [waitForAux, hobs0]
      rw [if_neg hnt0]
      apply ih (start + 1) j2 task (by omega)
      · intro k hk
        obtain ⟨tk, h1, h2⟩ := hbefore (k + 1) (by omega)
        refine ⟨tk, ?_, h2⟩
        rw [show start + 1 + k = start + (k + 1) by omega]
        exact h1
      · rw [show start + 1 + j2 = start + (j2 + 1) by omega]
        exact hobs
      · exact hterm

theorem waitForAux_timeout (observe : Nat → Option SubagentTask) :
    ∀ (fuel start : Nat),
      (∀ k, k < fuel → ∃ tk, observe (start + k) = some tk ∧
        ¬ (isTerminal tk.status = true)) →
      waitForAux observe start fuel = Except.error WaitError.taskTimeout := by
  intro fuel
  induction fuel with
  | zero => intro start _; rfl
  | succ n ih =>
    intro start h
    obtain ⟨t0, hobs0, hnt0⟩ := h 0 (Nat.succ_pos n)
    rw [Nat.add_zero] at hobs0
    simp only [waitForAux, hobs0]
    rw [if_neg hnt0]
    apply ih (start + 1)
    intro k hk
    obtain ⟨tk, h1, h2⟩ := h (k + 1) (by omega)
    refine ⟨tk, ?_, h2⟩
    rw [show start + 1 + k = start + (k + 1) by omega]
    exact h1

/-- C7: waitFor returns the task at the first poll that observes a
terminal state inside the allowed polls; it times out when no poll
inside the budget observes a terminal state; a lookup of an unknown id
fails as task-not-found on the first poll (the poll budget is positive
whenever timeoutMs is); and waitFor only observes the pool, so a timed
out wait changes nothing: finishing the task afterwards still drives it
to a terminal state. -/
theorem C7_waitFor_polls (observe : Nat → Option SubagentTask) (maxPolls : Nat) :
    (∀ j task, j < maxPolls →
      (∀ k, k < j → ∃ tk, observe k = some tk ∧ ¬ (isTerminal tk.status = true)) →
      observe j = some task → isTerminal task.status = true →
      waitFor observe maxPolls = Except.ok task) ∧
    ((∀ k, k < maxPolls → ∃ tk, observe k = some tk ∧
        ¬ (isTerminal tk.status = true)) →
      waitFor observe maxPolls = Except.error WaitError.taskTimeout) ∧
    (0 < maxPolls → observe 0 = none →
      waitFor observe maxPolls = Except.error WaitError.taskNotFound) ∧
    (∀ (s : PoolState) (tid : Nat) (outcome : Except String (Option String))
        (t : SubagentTask), getTask s tid = some t →
      ∃ t2, getTask (finishTask s tid outcome) tid = some t2 ∧
        isTerminal t2.status = true) := by
  refine ⟨?_, ?_, ?_, ?_⟩
  · intro j task hj hbefore hobs hterm
    apply waitForAux_ok observe maxPolls 0 j task hj
    · intro k hk
      simpa using hbefore k hk
    · simpa using hobs
    · exact hterm
  · intro h
    apply waitForAux_timeout observe maxPolls 0
    intro k hk
    simpa using h k hk
  · intro hpos hobs
    obtain ⟨n, rfl⟩ : ∃ n, maxPolls = n + 1 := ⟨maxPolls - 1, by omega⟩
    show waitForAux observe 0 (n + 1) = _
    simp only [waitForAux, hobs]
  · intro s tid outcome t ht
    refine ⟨_, getTask_finishTask_self s tid outcome t ht, ?_⟩
    cases outcome <;> rfl

/-- A task observation that is running at poll 0 and completed from
poll 1 on. -/
def obsFlip : Nat → Option SubagentTask := fun k =>
  some
    { id := 0, prompt := "p", model := "m",
      status := if k = 0 then TaskStatus.running else TaskStatus.completed }

/-- A task observation that never leaves the running state. -/
def obsRun : Nat → Option SubagentTask := fun _ =>
  some { id := 0, prompt := "p", model := "m", status := TaskStatus.running }

/-- Witness for C7 at concrete observation traces: a task that is
running at poll 0 and completed at poll 1 is returned; an always
running task times out; an unknown id fails as not found. -/
theorem C7_waitFor_polls_witness :
    waitFor obsFlip 3
      = Except.ok
        { id := 0, prompt := "p", model := "m", status := TaskStatus.completed } ∧
    waitFor obsRun 2 = Except.error WaitError.taskTimeout ∧
    waitFor (fun _ => none) 5 = Except.error WaitError.taskNotFound := by
  obtain ⟨h1, -, -, -⟩ := C7_waitFor_polls obsFlip 3
  obtain ⟨-, h2, -, -⟩ := C7_waitFor_polls obsRun 2
  obtain ⟨-, -, h3, -⟩ := C7_waitFor_polls (fun _ => (none : Option SubagentTask)) 5
  refine ⟨?_, ?_, ?_⟩
  · apply h1 1 _ (by norm_num)
    · intro k hk
      refine ⟨_, rfl, ?_⟩
      have hk0 : k = 0 := by omega
      subst hk0
      decide
    · rfl
    · decide
  · apply h2
    intro k hk
    exact ⟨_, rfl, by decide⟩
  · exact h3 (by norm_num) rfl

end AgentFlow
